import Mathlib

/-!
Verification development for the global-trace generator
(`generate_global_trace.py`, class `GlobalTraceGeneratorD3`).

The Python source is shallowly embedded below.  Python dictionaries
(which preserve insertion order) are modelled as association lists
`List (Int × α)`; Python's `None`-or-string attributes are `Option String`;
code that can raise (`int(...)` on a malformed string or on `None`,
`dict[key]` on a missing key) is modelled in the `Except Unit` monad, where
`Except.error ()` stands for an uncaught Python exception.

Rendering-only data (the `traced_rules` subtree of a TraceModel, which is
copied verbatim into the HTML tooltip and never influences reference
resolution, dependency building or level assignment) is not modelled.
-/

instance {ε α : Type} [DecidableEq ε] [DecidableEq α] : DecidableEq (Except ε α) := fun x y =>
  match x, y with
  | .ok a, .ok b =>
    if h : a = b then .isTrue (by rw [h]) else .isFalse (fun hc => h (Except.ok.inj hc))
  | .error a, .error b =>
    if h : a = b then .isTrue (by rw [h]) else .isFalse (fun hc => h (Except.error.inj hc))
  | .ok _, .error _ => .isFalse (fun hc => Except.noConfusion hc)
  | .error _, .ok _ => .isFalse (fun hc => Except.noConfusion hc)

/-- Truthiness of a Python `Optional[str]`: `None` and `""` are falsy. -/
def pyTruthy : Option String → Bool
  | none => false
  | some s => !s.isEmpty

/-- Python `str` whitespace for `str.split()` / `int()` stripping:
space, tab, newline, carriage return, vertical tab, form feed. -/
def isPyWs (c : Char) : Bool :=
  decide (c = ' ') || decide (c = '\t') || decide (c = '\n') || decide (c = '\r')
    || decide (c.toNat = 11) || decide (c.toNat = 12)

/-- `str.split(sep)` for a one-character separator predicate: split at every
separator character, keeping empty pieces (Python `"a..b".split('.') ==
['a', '', 'b']`, `"".split('.') == ['']`). -/
def splitPred (p : Char → Bool) : List Char → List (List Char)
  | [] => [[]]
  | c :: rest =>
    let r := splitPred p rest
    if p c then [] :: r
    else
      match r with
      | [] => [[c]]
      | g :: gs => (c :: g) :: gs

/-- Value of an ASCII decimal digit character, `none` otherwise. -/
def digitVal (c : Char) : Option Nat :=
  if c = '0' then some 0 else if c = '1' then some 1 else if c = '2' then some 2 else
  if c = '3' then some 3 else if c = '4' then some 4 else if c = '5' then some 5 else
  if c = '6' then some 6 else if c = '7' then some 7 else if c = '8' then some 8 else
  if c = '9' then some 9 else none

/-- Continue parsing a digit string the way Python `int()` does after the
first digit: underscores are allowed only between digits. -/
def pyDigitsAux : Nat → List Char → Option Nat
  | acc, [] => some acc
  | acc, c :: rest =>
    if c = '_' then
      match rest with
      | [] => none
      | c2 :: rest2 =>
        match digitVal c2 with
        | some d => pyDigitsAux (acc * 10 + d) rest2
        | none => none
    else
      match digitVal c with
      | some d => pyDigitsAux (acc * 10 + d) rest
      | none => none

/-- Parse a non-empty digit string (first character must be a digit). -/
def pyDigits : List Char → Option Nat
  | [] => none
  | c :: rest =>
    match digitVal c with
    | some d => pyDigitsAux d rest
    | none => none

/-- Strip leading and trailing Python whitespace from a character list. -/
def pyStrip (l : List Char) : List Char :=
  ((l.dropWhile isPyWs).reverse.dropWhile isPyWs).reverse

/-- Python `int(s)` for a string: strip surrounding whitespace, then an
optional sign followed by a non-empty digit string (underscores allowed
between digits).  `none` models a raised `ValueError`. -/
def pyInt? (l : List Char) : Option Int :=
  match pyStrip l with
  | [] => none
  | c :: rest =>
    if c = '-' then (pyDigits rest).map (fun n => -(n : Int))
    else if c = '+' then (pyDigits rest).map (fun n => (n : Int))
    else (pyDigits (c :: rest)).map (fun n => (n : Int))

/-- `GlobalTraceGeneratorD3.resolve_reference`: convert an XPath-style
reference to a node index.  A falsy (`None`/empty) reference yields `none`;
with at least two dot-separated parts, `int(parts[-1])` is returned, and a
`ValueError` from `int` is an uncaught exception (`Except.error`);
otherwise `None` is returned. -/
def resolve_reference (ref : Option String) : Except Unit (Option Int) :=
  if pyTruthy ref = false then Except.ok none
  else
    let parts := splitPred (fun c => decide (c = '.')) (ref.getD "").toList
    if 2 ≤ parts.length then
      match pyInt? (parts.getLastD []) with
      | some n => Except.ok (some n)
      | none => Except.error ()
    else Except.ok none

/-- The list comprehension inside `resolve_references_list`: resolve each
whitespace-separated token left to right, propagating the first exception. -/
def resolveTokens : List (List Char) → Except Unit (List (Option Int))
  | [] => Except.ok []
  | t :: ts => do
    let v ← resolve_reference (some (String.mk t))
    let vs ← resolveTokens ts
    pure (v :: vs)

/-- Python `str.split()` with no argument: split on whitespace runs,
discarding empty pieces. -/
def pySplitWs (s : String) : List (List Char) :=
  (splitPred isPyWs s.toList).filter (fun g => g ≠ [])

/-- `GlobalTraceGeneratorD3.resolve_references_list`: a falsy reference
yields `[]`; otherwise each whitespace-separated token is resolved in
order (duplicates kept, exceptions propagated). -/
def resolve_references_list (ref : Option String) : Except Unit (List (Option Int)) :=
  if pyTruthy ref = false then Except.ok []
  else resolveTokens (pySplitWs (ref.getD ""))

/-! ### Association-list model of Python `dict` -/

/-- First value stored under key `k` (Python `d[k]` / `d.get(k)`). -/
def lookupDict {α : Type} : List (Int × α) → Int → Option α
  | [], _ => none
  | (k', v) :: rest, k => if k' = k then some v else lookupDict rest k

/-- Python `k in d`. -/
def containsKey {α : Type} (m : List (Int × α)) (k : Int) : Bool :=
  m.any (fun p => decide (p.1 = k))

/-- Python `d[k] = v`: overwrite in place if the key exists (keeping its
position, as Python dicts do), otherwise append. -/
def dictSet {α : Type} (m : List (Int × α)) (k : Int) (v : α) : List (Int × α) :=
  if containsKey m k then m.map (fun p => if p.1 = k then (k, v) else p)
  else m ++ [(k, v)]

/-- `d.setdefault(k, []).append(v)` pattern used for `trace_dependencies`. -/
def dictAppendTo (m : List (Int × List Int)) (k : Int) (v : Int) : List (Int × List Int) :=
  if containsKey m k then m.map (fun p => if p.1 = k then (p.1, p.2 ++ [v]) else p)
  else m ++ [(k, [v])]

/-! ### Data model: raw records and extracted entities -/

/-- A raw input record (an XML `nodes` element), reduced to the attributes
the generator reads.  `xmiType` is the `{http://www.omg.org/XMI}type`
attribute; `attrIn`, `attrINupper`, `attrOUTupper`, `attrOut` are the
`In`, `IN`, `OUT`, `Out` attributes respectively. -/
structure RawNode where
  xmiType : Option String := none
  name : Option String := none
  conformsTo : Option String := none
  associatedWith : Option String := none
  attrIn : Option String := none
  ancestor : Option String := none
  version : Option String := none
  attrINupper : Option String := none
  attrOUTupper : Option String := none
  attrOut : Option String := none
  execAttr : Option String := none
  generates : Option String := none
deriving DecidableEq, Repr

/-- Entry of `self.models` (rendering data; not used by the builder). -/
structure ModelRec where
  index : Int
  name : Option String
  conformsTo : Option String
  associatedWith : Option String
  attrIn : Option String
deriving DecidableEq, Repr

/-- Entry of `self.trace_models` (the `traced_rules` list, which only feeds
the HTML tooltip, is not modelled). -/
structure TraceModelRec where
  index : Int
  name : Option String
  conformsTo : Option String
  ancestor : Option String
  version : Option String
deriving DecidableEq, Repr

/-- Entry of `self.executions`. -/
structure ExecRec where
  index : Int
  name : Option String
  generates : Option String
deriving DecidableEq, Repr

/-- Entry of `self.transformations`. -/
structure TransRec where
  index : Int
  name : Option String
  exec : Option String
  IN : Option String
  OUT : Option String
deriving DecidableEq, Repr

/-- `parse_nodes`: index the raw records by their position (`enumerate`). -/
def parse_nodes (nodes : List RawNode) : List (Int × RawNode) :=
  nodes.enum.map (fun p => ((p.1 : Int), p.2))

/-- `extract_models`. -/
def extract_models (nl : List (Int × RawNode)) : List (Int × ModelRec) :=
  nl.filterMap (fun p =>
    if p.2.xmiType = some "mpm_trace:Model" then
      some (p.1, ⟨p.1, p.2.name, p.2.conformsTo, p.2.associatedWith, p.2.attrIn⟩)
    else none)

/-- `extract_trace_models`. -/
def extract_trace_models (nl : List (Int × RawNode)) : List (Int × TraceModelRec) :=
  nl.filterMap (fun p =>
    if p.2.xmiType = some "mpm_trace:TraceModel" then
      some (p.1, ⟨p.1, p.2.name, p.2.conformsTo, p.2.ancestor, p.2.version⟩)
    else none)

/-- `extract_transformation_executions`. -/
def extract_transformation_executions (nl : List (Int × RawNode)) : List (Int × ExecRec) :=
  nl.filterMap (fun p =>
    if p.2.xmiType = some "mpm_trace:TransformationExecution" then
      some (p.1, ⟨p.1, p.2.name, p.2.generates⟩)
    else none)

/-- First pass of `extract_transformations`: read `exec`, `IN` and
`OUT or Out` (Python `or` takes `Out` whenever `OUT` is falsy) off every
Transformation record. -/
def transPass1 (nl : List (Int × RawNode)) : List (Int × TransRec) :=
  nl.filterMap (fun p =>
    if p.2.xmiType = some "mpm_trace:Transformation" then
      some (p.1, ⟨p.1, p.2.name, p.2.execAttr, p.2.attrINupper,
        if pyTruthy p.2.attrOUTupper then p.2.attrOUTupper else p.2.attrOut⟩)
    else none)

/-- The `IN` update of the merge pass: synthesize `'//@nodes.{idx}'` when
the current `IN` is falsy, else append `' //@nodes.{idx}'`. -/
def appendInputRef (cur : Option String) (midx : Int) : Option String :=
  if pyTruthy cur then some (cur.getD "" ++ " //@nodes." ++ toString midx)
  else some ("//@nodes." ++ toString midx)

/-- One resolved `In` target in the merge pass: if it is an index of an
extracted Transformation, rewrite that Transformation's `IN`. -/
def applyInRef (midx : Int) (ts : List (Int × TransRec)) (o : Option Int) :
    List (Int × TransRec) :=
  match o with
  | none => ts
  | some t =>
    if containsKey ts t then
      ts.map (fun p => if p.1 = t then (p.1, { p.2 with IN := appendInputRef p.2.IN midx }) else p)
    else ts

/-- Second pass of `extract_transformations`, one raw record at a time:
for a Model record with a truthy `In`, resolve the reference list (which
may raise) and apply every resolved target. -/
def transPass2Step (ts : List (Int × TransRec)) (item : Int × RawNode) :
    Except Unit (List (Int × TransRec)) :=
  if item.2.xmiType = some "mpm_trace:Model" then
    if pyTruthy item.2.attrIn then do
      let refs ← resolve_references_list item.2.attrIn
      pure (refs.foldl (applyInRef item.1) ts)
    else pure ts
  else pure ts

/-- `extract_transformations`: direct pass, then the two-dialect merge pass. -/
def extract_transformations (nl : List (Int × RawNode)) :
    Except Unit (List (Int × TransRec)) :=
  nl.foldlM transPass2Step (transPass1 nl)

/-- The generator's extraction state after `parse_nodes` and the four
`extract_*` calls made by `generate`. -/
structure GenState where
  models : List (Int × ModelRec)
  trace_models : List (Int × TraceModelRec)
  executions : List (Int × ExecRec)
  transformations : List (Int × TransRec)
deriving DecidableEq, Repr

/-- Run the extraction phase of `generate` on a raw record list. -/
def extractState (nodes : List RawNode) : Except Unit GenState := do
  let nl := parse_nodes nodes
  let transs ← extract_transformations nl
  pure ⟨extract_models nl, extract_trace_models nl,
    extract_transformation_executions nl, transs⟩

/-! ### `build_global_trace` -/

/-- Inner loop of the `exec_to_trace` step: first execution whose resolved
`generates` equals this trace index (resolution may raise). -/
def findExecFor (execs : List (Int × ExecRec)) (tidx : Int) : Except Unit (Option Int) :=
  match execs with
  | [] => Except.ok none
  | (eidx, e) :: rest => do
    let g ← resolve_reference e.generates
    if g = some tidx then pure (some eidx)
    else findExecFor rest tidx

/-- `exec_to_trace`: for each TraceModel, record the first matching
execution (keyed by execution index). -/
def buildExecToTrace (st : GenState) : Except Unit (List (Int × Int)) :=
  st.trace_models.foldlM (fun acc p => do
    match ← findExecFor st.executions p.1 with
    | some e => pure (acc ++ [(e, p.1)])
    | none => pure acc) []

/-- Inner loop of the `trace_to_transformation` step: first Transformation
whose resolved `exec` list contains this execution index. -/
def findTransFor (transs : List (Int × TransRec)) (eidx : Int) : Except Unit (Option Int) :=
  match transs with
  | [] => Except.ok none
  | (tridx, tr) :: rest => do
    let refs ← resolve_references_list tr.exec
    if some eidx ∈ refs then pure (some tridx)
    else findTransFor rest eidx

/-- Middle-loop body of the `trace_to_transformation` step, for the trace
key `t` and one `exec_to_trace` item `q`. -/
def t2tInnerStep (transs : List (Int × TransRec)) (t : Int)
    (acc2 : List (Int × Int)) (q : Int × Int) : Except Unit (List (Int × Int)) :=
  if q.2 = t then do
    match ← findTransFor transs q.1 with
    | some tr => pure (dictSet acc2 t tr)
    | none => pure acc2
  else pure acc2

/-- Outer-loop body of the `trace_to_transformation` step (no break on the
middle loop). -/
def t2tOuterStep (transs : List (Int × TransRec)) (e2t : List (Int × Int))
    (acc : List (Int × Int)) (p : Int × TraceModelRec) : Except Unit (List (Int × Int)) :=
  e2t.foldlM (t2tInnerStep transs p.1) acc

/-- `trace_to_transformation`: for each TraceModel key, scan `exec_to_trace`
entries pointing at it and map the trace to the first Transformation
owning that execution (dict assignment). -/
def buildTraceToTrans (st : GenState) (e2t : List (Int × Int)) :
    Except Unit (List (Int × Int)) :=
  st.trace_models.foldlM (t2tOuterStep st.transformations e2t) []

/-- `ancestor_pairs`: all `(ancestor_idx, trace_idx)` pairs with a truthy,
resolvable `ancestor` reference (a Python `set`; only membership is used
downstream, so a list is an adequate model). -/
def buildAncestorPairs (tms : List (Int × TraceModelRec)) : Except Unit (List (Int × Int)) :=
  tms.foldlM (fun acc p =>
    if pyTruthy p.2.ancestor then do
      match ← resolve_reference p.2.ancestor with
      | some a => pure (acc ++ [(a, p.1)])
      | none => pure acc
    else pure acc) []

/-- `int(trace_data.get('version', 1))`:  the `'version'` key always exists
in the extracted dict (possibly holding `None`), so the stored value is
passed to `int` as is — `int(None)` raises `TypeError`, and `int` of a
non-numeric string raises `ValueError`. -/
def versionOf (v : Option String) : Except Unit Int :=
  match v with
  | none => Except.error ()
  | some s =>
    match pyInt? s.toList with
    | some n => Except.ok n
    | none => Except.error ()

/-- `self.trace_models[trace_idx]` followed by the version conversion
(a missing key would be a `KeyError`). -/
def versionAt (tms : List (Int × TraceModelRec)) (t : Int) : Except Unit Int :=
  match lookupDict tms t with
  | some td => versionOf td.version
  | none => Except.error ()

/-- Loop body of `trans_to_latest_trace` for one
`(trace_idx, trans_idx)` item: record a first version, or overwrite the
recorded `(trace, version)` pair when the new version is strictly
greater. -/
def latestStep (tms : List (Int × TraceModelRec))
    (acc : List (Int × (Int × Int))) (p : Int × Int) :
    Except Unit (List (Int × (Int × Int))) := do
  let v ← versionAt tms p.1
  match lookupDict acc p.2 with
  | none => pure (acc ++ [(p.2, (p.1, v))])
  | some cur => if v > cur.2 then pure (dictSet acc p.2 (p.1, v)) else pure acc

/-- `trans_to_latest_trace`: keep, per transformation, the trace with the
strictly highest version seen so far. -/
def buildLatest (tms : List (Int × TraceModelRec)) (t2t : List (Int × Int)) :
    Except Unit (List (Int × (Int × Int))) :=
  t2t.foldlM (latestStep tms) []

/-- `latest_trace_indices` (a set comprehension; membership model). -/
def latestIndices (l : List (Int × (Int × Int))) : List Int :=
  l.map (fun p => p.2.1)

/-- `self.transformations[k]` (missing key = `KeyError`). -/
def getTrans (transs : List (Int × TransRec)) (k : Int) : Except Unit TransRec :=
  match lookupDict transs k with
  | some tr => Except.ok tr
  | none => Except.error ()

/-- One inner-loop iteration of the dependency inference: for a fixed
latest trace `a` with resolved outputs `outs` and one other mapped trace
item `q = (B, trans_B)`, skip identical or ancestor-related pairs, and
append `a → B` when some output of `a` occurs among the resolved inputs
of `B`'s transformation. -/
def depsInnerStep (transs : List (Int × TransRec)) (ancPairs : List (Int × Int))
    (a : Int) (outs : List (Option Int)) (acc2 : List (Int × List Int))
    (q : Int × Int) : Except Unit (List (Int × List Int)) :=
  if a = q.1 then pure acc2
  else if (a, q.1) ∈ ancPairs ∨ (q.1, a) ∈ ancPairs then pure acc2
  else do
    let trB ← getTrans transs q.2
    let ins ← resolve_references_list trB.IN
    if outs.any (fun o => decide (o ∈ ins)) then pure (dictAppendTo acc2 a q.1)
    else pure acc2

/-- The full inner loop of the dependency inference. -/
def depsInner (transs : List (Int × TransRec)) (ancPairs : List (Int × Int))
    (a : Int) (outs : List (Option Int)) (t2t : List (Int × Int))
    (acc : List (Int × List Int)) : Except Unit (List (Int × List Int)) :=
  t2t.foldlM (depsInnerStep transs ancPairs a outs) acc

/-- One outer-loop iteration of the dependency inference. -/
def depsOuterStep (transs : List (Int × TransRec)) (ancPairs : List (Int × Int))
    (latest : List Int) (t2t : List (Int × Int)) (acc : List (Int × List Int))
    (p : Int × Int) : Except Unit (List (Int × List Int)) :=
  if p.1 ∈ latest then do
    let trA ← getTrans transs p.2
    let outs ← resolve_references_list trA.OUT
    depsInner transs ancPairs p.1 outs t2t acc
  else pure acc

/-- `trace_dependencies`: only latest traces originate edges. -/
def buildDeps (transs : List (Int × TransRec)) (t2t : List (Int × Int))
    (ancPairs : List (Int × Int)) (latest : List Int) :
    Except Unit (List (Int × List Int)) :=
  t2t.foldlM (depsOuterStep transs ancPairs latest t2t) []

/-- Result of `build_global_trace`. -/
structure GlobalTrace where
  trace_to_transformation : List (Int × Int)
  trace_dependencies : List (Int × List Int)
  exec_to_trace : List (Int × Int)
deriving DecidableEq, Repr

/-- `GlobalTraceGeneratorD3.build_global_trace`. -/
def build_global_trace (st : GenState) : Except Unit GlobalTrace := do
  let e2t ← buildExecToTrace st
  let t2t ← buildTraceToTrans st e2t
  let ap ← buildAncestorPairs st.trace_models
  let lt ← buildLatest st.trace_models t2t
  let deps ← buildDeps st.transformations t2t ap (latestIndices lt)
  pure ⟨t2t, deps, e2t⟩

/-! ### `calculate_node_levels` -/

/-- The `while queue` loop of `calculate_node_levels`, with explicit fuel:
`none` means the fuel ran out (the Python loop would still be running).
`queue.pop(0)` takes the head; children are appended at the tail. -/
def bfsRun (deps : List (Int × List Int)) :
    Nat → List (Int × Int) → List (Int × Int) → Option (List (Int × Int))
  | 0, _, _ => none
  | _ + 1, levels, [] => some levels
  | fuel + 1, levels, (node, level) :: rest =>
    let improve :=
      match lookupDict levels node with
      | none => true
      | some cur => decide (cur < level)
    if improve then
      bfsRun deps fuel (dictSet levels node level)
        (rest ++ ((lookupDict deps node).getD []).map (fun c => (c, level + 1)))
    else bfsRun deps fuel levels rest

/-- `source_nodes = all_nodes - nodes_with_incoming` (trace-model keys with
no incoming dependency edge; Python iterates this set in an unspecified
order — the list order below is one such order, and the theorems below
only concern the resulting key-to-level mapping). -/
def sourceNodes (traceKeys : List Int) (deps : List (Int × List Int)) : List Int :=
  traceKeys.filter (fun v => decide (v ∉ deps.flatMap (fun p => p.2)))

/-- `GlobalTraceGeneratorD3.calculate_node_levels` with explicit fuel. -/
def calculate_node_levels (traceKeys : List Int) (deps : List (Int × List Int))
    (fuel : Nat) : Option (List (Int × Int)) :=
  bfsRun deps fuel [] ((sourceNodes traceKeys deps).map (fun v => (v, 0)))

example : resolve_reference (some "//@nodes.5") = Except.ok (some 5) := by decide
example : resolve_reference (some "5") = Except.ok none := by decide
example : resolve_reference (some "a.b") = Except.error () := by decide
example : resolve_reference none = Except.ok none := by decide
example : resolve_references_list (some "//@nodes.1 //@nodes.2 //@nodes.1") =
    Except.ok [some 1, some 2, some 1] := by decide

/-! ### Graph notions for the level assignor -/

/-- Adjacency lookup in the dependency map (`dependencies[v]`, defaulting to
no children for absent keys, as the BFS does). -/
def depsLookup (m : List (Int × List Int)) (k : Int) : List Int :=
  (lookupDict m k).getD []

/-- A directed dependency edge of the adjacency map, as the BFS traverses
it (through dictionary lookup). -/
def depEdge (deps : List (Int × List Int)) (u v : Int) : Prop :=
  ∃ cs, lookupDict deps u = some cs ∧ v ∈ cs

/-- Acyclicity of the adjacency map, witnessed by a topological ranking:
every edge strictly increases the rank.  For a finite graph this is
(classically) equivalent to the absence of directed cycles;
`topoRank_no_cycle` below proves the direction used here. -/
def IsTopoRank (deps : List (Int × List Int)) (rank : Int → Nat) : Prop :=
  ∀ u v, depEdge deps u v → rank u < rank v

/-- A directed path of the given length through the adjacency map. -/
def hasPathLen (deps : List (Int × List Int)) : Nat → Int → Int → Prop
  | 0, u, v => u = v
  | n + 1, u, v => ∃ w, depEdge deps u w ∧ hasPathLen deps n w v

/-- Termination measure for the BFS worklist: each queue entry `(v, l)`
contributes `K ^ (M + 1 - l)`. -/
def bfsPotential (K M : Nat) (queue : List (Int × Int)) : Nat :=
  (queue.map (fun p => K ^ (M + 1 - p.2.toNat))).sum

/-- Largest child-list length occurring in the adjacency map. -/
def maxChildLen (deps : List (Int × List Int)) : Nat :=
  deps.foldr (fun p m => max p.2.length m) 0

/-- Upper bound for the ranks of every node the BFS can ever enqueue:
the initial sources and every child occurring in the adjacency map. -/
def rankUB (rank : Int → Nat) (deps : List (Int × List Int)) (srcs : List Int) : Nat :=
  (srcs.map rank ++ (deps.flatMap (fun p => p.2)).map rank).foldr max 0

/-! ### Proof-infrastructure predicates -/

/-- Specification of one `trans_to_latest_trace` entry: transformation
`tr` selects trace `tidx` with version `v` exactly when `(tidx, tr)` occurs
in the scanned list, `tidx`'s version converts to `v`, every earlier item
of the same transformation group has a strictly smaller version and every
later one a smaller-or-equal version (so `tidx` is the first trace
attaining the group's maximal version: ties are kept by the strict `>`
comparison). -/
def LatestEntrySpec (tms : List (Int × TraceModelRec)) (scanned : List (Int × Int))
    (tr tidx v : Int) : Prop :=
  versionAt tms tidx = Except.ok v ∧
    ∃ l1 l2, scanned = l1 ++ (tidx, tr) :: l2 ∧
      (∀ q ∈ l1, q.2 = tr → ∃ w, versionAt tms q.1 = Except.ok w ∧ w < v) ∧
      (∀ q ∈ l2, q.2 = tr → ∃ w, versionAt tms q.1 = Except.ok w ∧ w ≤ v)

/-- Loop invariant of the latest-version fold. -/
def LatestInv (tms : List (Int × TraceModelRec)) (scanned : List (Int × Int))
    (acc : List (Int × (Int × Int))) : Prop :=
  (acc.map Prod.fst).Nodup ∧
    (∀ q ∈ scanned, ∃ e ∈ acc, e.1 = q.2) ∧
    ∀ e ∈ acc, LatestEntrySpec tms scanned e.1 e.2.1 e.2.2

/-- Invariant of the dialect-merge pass for the transformation at key
`tIdx`: it is present, its `IN` reference list resolves, and (when
`withMem = some x`) the resolved list contains `x`. -/
def MergedInputInv (transs : List (Int × TransRec)) (tIdx : Int)
    (withMem : Option Int) : Prop :=
  ∃ rec L, lookupDict transs tIdx = some rec ∧
    resolve_references_list rec.IN = Except.ok L ∧
    ∀ x, withMem = some x → some x ∈ L

/-- Reachability invariant of the BFS: every entry `(v, l)` (of the queue
or of the recorded levels) has a non-negative `l` that is the length of an
actual path from some source to `v`. -/
def BfsReach (deps : List (Int × List Int)) (srcs : List Int)
    (entries : List (Int × Int)) : Prop :=
  ∀ p ∈ entries, 0 ≤ p.2 ∧ ∃ s ∈ srcs, hasPathLen deps p.2.toNat s p.1

/-- Pending-obligation invariant of the BFS: for every recorded level
`levels[v] = L` and every child `c` of `v`, either an entry `(c, l2)` with
`L + 1 ≤ l2` is still queued, or `c` is already recorded at level
`≥ L + 1`. -/
def BfsPending (deps : List (Int × List Int))
    (levels queue : List (Int × Int)) : Prop :=
  ∀ v L, lookupDict levels v = some L → ∀ cs, lookupDict deps v = some cs →
    ∀ c ∈ cs, (∃ l2, (c, l2) ∈ queue ∧ L + 1 ≤ l2) ∨
      (∃ l3, lookupDict levels c = some l3 ∧ L + 1 ≤ l3)

/-! ### Concrete inputs used by witnesses and counterexamples -/

/-- A mapped TraceModel record carrying no `version` attribute, its
execution and its transformation. -/
def nodesNoVersion : List RawNode :=
  [{ xmiType := some "mpm_trace:TraceModel", name := some "T1" },
   { xmiType := some "mpm_trace:TransformationExecution", generates := some "//@nodes.0" },
   { xmiType := some "mpm_trace:Transformation", execAttr := some "//@nodes.1" }]

/-- The dialect-merge example of spec §8: a Model whose `In` points at the
Transformation at index 3, which declares no `IN` of its own. -/
def nodesMerge : List RawNode :=
  [{ xmiType := some "mpm_trace:Model", name := some "M0", attrIn := some "//@nodes.3" },
   {}, {},
   { xmiType := some "mpm_trace:Transformation", name := some "T" }]

/-- Extraction state with two mapped traces whose transformations share a
model reference (`//@nodes.10`): trace 0 outputs it, trace 1 inputs it. -/
def stTwoTraces : GenState :=
  { models := [],
    trace_models :=
      [(0, ⟨0, some "Tr1", none, none, some "1"⟩), (1, ⟨1, some "Tr2", none, none, some "1"⟩)],
    executions := [(2, ⟨2, some "E1", some "//@nodes.0"⟩), (3, ⟨3, some "E2", some "//@nodes.1"⟩)],
    transformations :=
      [(4, ⟨4, some "T1", some "//@nodes.2", none, some "//@nodes.10"⟩),
       (5, ⟨5, some "T2", some "//@nodes.3", some "//@nodes.10", none⟩)] }

-- sanity checks (development)
example : calculate_node_levels [0, 1, 2] [(0, [1, 2]), (2, [1])] 16 =
    some [(0, 0), (1, 2), (2, 1)] := by decide
example :
    buildLatest [(5, ⟨5, none, none, none, some "1"⟩), (6, ⟨6, none, none, none, some "3"⟩),
        (7, ⟨7, none, none, none, some "2"⟩)] [(5, 100), (6, 100), (7, 100)] =
      Except.ok [(100, (6, 3))] := by decide


/-! ### Lemmas about splitting and resolution -/

lemma splitPred_ne_nil (p : Char → Bool) (l : List Char) : splitPred p l ≠ [] := by
  cases l with
  | nil => simp [splitPred]
  | cons c rest =>
    simp only [splitPred]
    cases hp : p c with
    | true => simp [hp]
    | false =>
      simp only [hp, Bool.false_eq_true, if_false]
      cases splitPred p rest <;> simp

lemma splitPred_no_sep (p : Char → Bool) (l : List Char)
    (h : ∀ c ∈ l, p c = false) : splitPred p l = [l] := by
  induction l with
  | nil => rfl
  | cons c rest ih =>
    have hc : p c = false := h c (List.mem_cons_self c rest)
    have hrest := ih (fun x hx => h x (List.mem_cons_of_mem c hx))
    simp [splitPred, hc, hrest]

lemma toList_ne_nil_of_ne_empty (s : String) (h : s ≠ "") : s.toList ≠ [] := by
  intro hc
  apply h
  cases s with
  | mk data => simpa using congrArg String.mk hc

lemma pyTruthy_some_true (s : String) (h : s.toList ≠ []) : pyTruthy (some s) = true := by
  simp only [pyTruthy, Bool.not_eq_true']
  rw [Bool.eq_false_iff]
  intro hc
  apply h
  have : s = "" := (String.isEmpty_iff s).mp hc
  rw [this]
  rfl

lemma decide_ne_false {c d : Char} (h : c ≠ d) : decide (c = d) = false := by
  simp [h]

/-- C9: a reference with no dot separator resolves to `none`. -/
theorem resolve_no_dot (s : String) (h1 : s.toList ≠ []) (h2 : ('.' : Char) ∉ s.toList) :
    resolve_reference (some s) = Except.ok none := by
  have ht := pyTruthy_some_true s h1
  have hsplit : splitPred (fun c => decide (c = '.')) s.toList = [s.toList] :=
    splitPred_no_sep _ _ (fun c hc => by
      simp only [decide_eq_false_iff_not]
      intro he
      exact h2 (he ▸ hc))
  have hsplit2 : splitPred (fun c => decide (c = '.')) s.data = [s.data] := hsplit
  simp [resolve_reference, ht, hsplit2]

/-- A reference whose final dot-separated segment fails `int()` raises. -/
theorem resolve_malformed_error (s : String)
    (h2 : 2 ≤ (splitPred (fun c => decide (c = '.')) s.toList).length)
    (h3 : pyInt? ((splitPred (fun c => decide (c = '.')) s.toList).getLastD []) = none) :
    resolve_reference (some s) = Except.error () := by
  have h1 : s.toList ≠ [] := by
    intro hc
    rw [hc] at h2
    simp [splitPred] at h2
  have ht := pyTruthy_some_true s h1
  have h2d : 2 ≤ (splitPred (fun c => decide (c = '.')) s.data).length := h2
  have h3d : pyInt? ((splitPred (fun c => decide (c = '.')) s.data).getLastD []) = none := h3
  rw [List.getLastD_eq_getLast?] at h3d
  simp [resolve_reference, ht, h2d, h3d]

lemma resolveTokens_ok_spec : ∀ (ts : List (List Char)) (l : List (Option Int)),
    resolveTokens ts = Except.ok l →
    l.length = ts.length ∧
      ∀ i (hi : i < ts.length) (hl : i < l.length),
        resolve_reference (some (String.mk (ts.get ⟨i, hi⟩))) = Except.ok (l.get ⟨i, hl⟩) := by
  intro ts
  induction ts with
  | nil =>
    intro l h
    simp only [resolveTokens] at h
    have hl : l = [] := by
      cases h
      rfl
    subst hl
    exact ⟨rfl, fun i hi _ => absurd hi (by simp)⟩
  | cons t ts ih =>
    intro l h
    simp only [resolveTokens, bind, Except.bind] at h
    cases hv : resolve_reference (some (String.mk t)) with
    | error e =>
      rw [hv] at h
      exact absurd h (by simp)
    | ok v =>
      rw [hv] at h
      cases hts : resolveTokens ts with
      | error e =>
        rw [hts] at h
        exact absurd h (by simp)
      | ok vs =>
        rw [hts] at h
        have hl : l = v :: vs := by
          cases h
          rfl
        subst hl
        obtain ⟨hlen, hidx⟩ := ih vs hts
        refine ⟨by simp [hlen], ?_⟩
        intro i hi hl
        cases i with
        | zero => simpa using hv
        | succ j => exact hidx j (by simpa using hi) (by simpa using hl)

example : (extractState nodesNoVersion).bind build_global_trace = Except.error () := by decide
example : build_global_trace stTwoTraces =
    Except.ok ⟨[(0, 4), (1, 5)], [(0, [1])], [(2, 0), (3, 1)]⟩ := by decide
example : extract_transformations (parse_nodes nodesMerge) =
    Except.ok [(3, ⟨3, some "T", none, some "//@nodes.0", none⟩)] := by decide

/-! ### Claim theorems: reference resolution -/

/-- C9: for every non-empty reference string containing no dot separator —
including a string that is entirely a numeric literal, such as `"5"` —
`resolve_reference` returns `none` rather than an index: at least two
dot-separated segments are required before the trailing segment is
interpreted. -/
theorem claim_C9_no_dot_unresolved (s : String) (h1 : s.toList ≠ [])
    (h2 : ('.' : Char) ∉ s.toList) :
    resolve_reference (some s) = Except.ok none :=
  resolve_no_dot s h1 h2

theorem claim_C9_witness :
    ("5" : String).toList ≠ [] ∧ ('.' : Char) ∉ ("5" : String).toList ∧
      resolve_reference (some "5") = Except.ok none :=
  ⟨by decide, by decide, claim_C9_no_dot_unresolved "5" (by decide) (by decide)⟩

/-- C3 counterexample: the reference `"a.b"` is non-empty and its final
dot-separated segment is not an integer literal, yet resolution raises an
uncaught `ValueError` (`int('b')`) instead of treating the field as
absent. -/
theorem claim_C3_counterexample :
    resolve_reference (some "a.b") = Except.error () ∧
      resolve_reference (some "a.b") ≠ Except.ok none :=
  ⟨by decide, by decide⟩

/-- C3 (amended): for every reference string with at least two
dot-separated segments whose final segment is not accepted by `int()`,
`resolve_reference` raises (propagating the exception to its callers in
extraction and dependency building) instead of returning the unresolved
result. -/
theorem claim_C3_malformed_raises (s : String)
    (h2 : 2 ≤ (splitPred (fun c => decide (c = '.')) s.toList).length)
    (h3 : pyInt? ((splitPred (fun c => decide (c = '.')) s.toList).getLastD []) = none) :
    resolve_reference (some s) = Except.error () :=
  resolve_malformed_error s h2 h3

theorem claim_C3_witness :
    2 ≤ (splitPred (fun c => decide (c = '.')) ("x.y" : String).toList).length ∧
      resolve_reference (some "x.y") = Except.error () :=
  ⟨by decide, claim_C3_malformed_raises "x.y" (by decide) (by decide)⟩

/-- C7: reference resolution is deterministic (a pure function of its
input); resolving a `None` or empty reference yields `none` with
`resolve_reference` and `[]` with `resolve_references_list`, never an
error; and a successful `resolve_references_list` returns exactly one
result per whitespace-separated token, in token order (so duplicates are
preserved), each equal to that token's `resolve_reference` result. -/
theorem claim_C7_resolution_deterministic (s : String) (l : List (Option Int))
    (h : resolve_references_list (some s) = Except.ok l) :
    (∀ r, resolve_reference r = resolve_reference r) ∧
    resolve_reference none = Except.ok none ∧
    resolve_reference (some "") = Except.ok none ∧
    resolve_references_list none = Except.ok [] ∧
    resolve_references_list (some "") = Except.ok [] ∧
    l.length = (pySplitWs s).length ∧
    ∀ i (hi : i < (pySplitWs s).length) (hl : i < l.length),
      resolve_reference (some (String.mk ((pySplitWs s).get ⟨i, hi⟩))) =
        Except.ok (l.get ⟨i, hl⟩) := by
  refine ⟨fun r => rfl, by decide, by decide, by decide, by decide, ?_, ?_⟩ <;>
  · cases hpt : pyTruthy (some s) with
    | false =>
      have hs : s = "" := by
        have he : s.isEmpty = true := by simpa [pyTruthy] using hpt
        exact (String.isEmpty_iff s).mp he
      subst hs
      have hl : l = [] := by
        have h0 : resolve_references_list (some "") = Except.ok [] := by decide
        rw [h0] at h
        exact (Except.ok.inj h).symm
      subst hl
      decide
    | true =>
      have hr : resolveTokens (pySplitWs s) = Except.ok l := by
        simpa [resolve_references_list, hpt] using h
      obtain ⟨hlen, hidx⟩ := resolveTokens_ok_spec _ _ hr
      first
      | exact hlen
      | exact hidx

/-- C7 witness: a reference list with a duplicate token resolves to a
duplicate-preserving result of the same length. -/
theorem claim_C7_witness :
    resolve_references_list (some "//@nodes.1 //@nodes.2 //@nodes.1") =
        Except.ok [some 1, some 2, some 1] ∧
      ([some 1, some 2, some 1] : List (Option Int)).length =
        (pySplitWs "//@nodes.1 //@nodes.2 //@nodes.1").length :=
  ⟨by decide, (claim_C7_resolution_deterministic _ _ (by decide)).2.2.2.2.2.1⟩

/-! ### Claim theorem: the missing-version crash (C4) -/

/-- C4 (code bug): a TraceModel record carrying no `version` attribute that
is mapped to a Transformation makes `build_global_trace` raise: the
extracted dict always contains the `'version'` key (holding `None` when
the attribute is absent), so `trace_data.get('version', 1)` returns `None`
— not the default `1` — and `int(None)` raises `TypeError`.  The intended
default of 1 is never applied. -/
theorem claim_C4_missing_version_crashes :
    (extractState nodesNoVersion).bind build_global_trace = Except.error () ∧
      versionOf none = Except.error () :=
  ⟨by decide, rfl⟩

/-! ### Dictionary lemmas -/

lemma lookupDict_mem {α : Type} : ∀ {m : List (Int × α)} {k : Int} {v : α},
    lookupDict m k = some v → (k, v) ∈ m := by
  intro m
  induction m with
  | nil =>
    intro k v h
    exact absurd h (by simp [lookupDict])
  | cons p rest ih =>
    intro k v h
    obtain ⟨k', v'⟩ := p
    simp only [lookupDict] at h
    by_cases hk : k' = k
    · rw [if_pos hk] at h
      subst hk
      cases h
      exact List.mem_cons_self _ _
    · rw [if_neg hk] at h
      exact List.mem_cons_of_mem _ (ih h)

lemma lookupDict_none_not_mem {α : Type} : ∀ {m : List (Int × α)} {k : Int},
    lookupDict m k = none → ∀ e ∈ m, e.1 ≠ k := by
  intro m
  induction m with
  | nil => simp
  | cons p rest ih =>
    intro k h e he
    obtain ⟨k', v'⟩ := p
    simp only [lookupDict] at h
    by_cases hk : k' = k
    · rw [if_pos hk] at h
      cases h
    · rw [if_neg hk] at h
      rcases List.mem_cons.mp he with he | he
      · subst he
        exact hk
      · exact ih h e he

lemma lookupDict_of_mem_nodup {α : Type} : ∀ {m : List (Int × α)},
    (m.map Prod.fst).Nodup → ∀ {k : Int} {v : α}, (k, v) ∈ m → lookupDict m k = some v := by
  intro m
  induction m with
  | nil => simp
  | cons p rest ih =>
    intro hnd k v hm
    obtain ⟨k', v'⟩ := p
    simp only [List.map_cons, List.nodup_cons] at hnd
    rcases List.mem_cons.mp hm with he | he
    · cases he
      simp [lookupDict]
    · have hk : k' ≠ k := by
        intro hc
        subst hc
        exact hnd.1 (List.mem_map.mpr ⟨(k', v), he, rfl⟩)
      simp only [lookupDict, if_neg hk]
      exact ih hnd.2 he

lemma containsKey_true_iff {α : Type} (m : List (Int × α)) (k : Int) :
    containsKey m k = true ↔ ∃ e ∈ m, e.1 = k := by
  simp [containsKey]

lemma containsKey_of_lookup {α : Type} {m : List (Int × α)} {k : Int} {v : α}
    (h : lookupDict m k = some v) : containsKey m k = true :=
  (containsKey_true_iff m k).mpr ⟨(k, v), lookupDict_mem h, rfl⟩

lemma containsKey_false_iff {α : Type} (m : List (Int × α)) (k : Int) :
    containsKey m k = false ↔ ∀ e ∈ m, e.1 ≠ k := by
  simp [containsKey]

lemma dictSet_mem_iff {α : Type} {m : List (Int × α)} {k : Int} {v : α} {e : Int × α} :
    e ∈ dictSet m k v ↔ (e = (k, v) ∧ containsKey m k = true) ∨
      (e.1 ≠ k ∧ e ∈ m) ∨ (e = (k, v) ∧ containsKey m k = false) := by
  unfold dictSet
  cases hck : containsKey m k with
  | true =>
    rw [if_pos rfl]
    constructor
    · intro hm
      obtain ⟨q, hq, hqe⟩ := List.mem_map.mp hm
      by_cases hqk : q.1 = k
      · rw [if_pos hqk] at hqe
        exact Or.inl ⟨hqe.symm, rfl⟩
      · rw [if_neg hqk] at hqe
        subst hqe
        exact Or.inr (Or.inl ⟨hqk, hq⟩)
    · rintro (⟨rfl, _⟩ | ⟨hne, hm⟩ | ⟨_, hck2⟩)
      · obtain ⟨q, hq, hqk⟩ := (containsKey_true_iff m k).mp hck
        exact List.mem_map.mpr ⟨q, hq, by rw [if_pos hqk]⟩
      · exact List.mem_map.mpr ⟨e, hm, by rw [if_neg hne]⟩
      · cases hck2
  | false =>
    rw [if_neg (by simp)]
    constructor
    · intro hm
      rcases List.mem_append.mp hm with hm | hm
      · exact Or.inr (Or.inl ⟨(containsKey_false_iff m k).mp hck e hm, hm⟩)
      · rw [List.mem_singleton] at hm
        exact Or.inr (Or.inr ⟨hm, rfl⟩)
    · rintro (⟨rfl, hck2⟩ | ⟨_, hm⟩ | ⟨rfl, _⟩)
      · cases hck2
      · exact List.mem_append.mpr (Or.inl hm)
      · exact List.mem_append.mpr (Or.inr (List.mem_singleton.mpr rfl))

lemma dictSet_keys_nodup {α : Type} {m : List (Int × α)} {k : Int} {v : α}
    (h : (m.map Prod.fst).Nodup) : ((dictSet m k v).map Prod.fst).Nodup := by
  unfold dictSet
  cases hck : containsKey m k with
  | true =>
    rw [if_pos rfl]
    have : (List.map (fun p => if p.1 = k then (k, v) else p) m).map Prod.fst =
        m.map Prod.fst := by
      rw [List.map_map]
      apply List.map_congr_left
      intro q _
      by_cases hqk : q.1 = k
      · simp [hqk]
      · simp [hqk]
    rw [this]
    exact h
  | false =>
    rw [if_neg (by simp)]
    rw [List.map_append, List.nodup_append]
    refine ⟨h, by simp, ?_⟩
    intro x hx
    simp only [List.map_cons, List.map_nil, List.mem_singleton]
    intro hc
    obtain ⟨q, hq, hqk⟩ := List.mem_map.mp hx
    exact (containsKey_false_iff m k).mp hck q hq (hqk.trans hc)

/-! ### Latest-version selection (C5) -/

lemma latestStep_preserves (tms : List (Int × TraceModelRec))
    {scanned : List (Int × Int)} {acc acc2 : List (Int × (Int × Int))} {p : Int × Int}
    (hstep : latestStep tms acc p = Except.ok acc2)
    (hinv : LatestInv tms scanned acc) : LatestInv tms (scanned ++ [p]) acc2 := by
  obtain ⟨hnd, hcov, hent⟩ := hinv
  unfold latestStep at hstep
  cases hv : versionAt tms p.1 with
  | error e =>
    rw [hv] at hstep
    exact absurd hstep (by simp [bind, Except.bind])
  | ok v0 =>
    rw [hv] at hstep
    simp only [bind, Except.bind] at hstep
    cases hcur : lookupDict acc p.2 with
    | none =>
      rw [hcur] at hstep
      simp only [pure, Except.pure] at hstep
      have hacc2 : acc2 = acc ++ [(p.2, (p.1, v0))] := (Except.ok.inj hstep).symm
      subst hacc2
      refine ⟨?_, ?_, ?_⟩
      · rw [List.map_append, List.nodup_append]
        refine ⟨hnd, by simp, ?_⟩
        intro x hx
        simp only [List.map_cons, List.map_nil, List.mem_singleton]
        intro hc
        obtain ⟨q, hq, hqk⟩ := List.mem_map.mp hx
        exact lookupDict_none_not_mem hcur q hq (hqk.trans hc)
      · intro q hq
        rcases List.mem_append.mp hq with hq | hq
        · obtain ⟨e, he, hek⟩ := hcov q hq
          exact ⟨e, List.mem_append_left _ he, hek⟩
        · rw [List.mem_singleton] at hq
          exact ⟨(p.2, (p.1, v0)), List.mem_append_right _ (by simp), by rw [hq]⟩
      · intro e he
        rcases List.mem_append.mp he with he | he
        · obtain ⟨hver, l1, l2, hdec, hbefore, hafter⟩ := hent e he
          refine ⟨hver, l1, l2 ++ [p], by rw [hdec]; simp, hbefore, ?_⟩
          intro q hq hqtr
          rcases List.mem_append.mp hq with hq | hq
          · exact hafter q hq hqtr
          · rw [List.mem_singleton] at hq
            rw [hq] at hqtr
            exact absurd hqtr.symm (lookupDict_none_not_mem hcur e he)
        · rw [List.mem_singleton] at he
          rw [he]
          refine ⟨hv, scanned, [], by simp, ?_, by simp⟩
          intro q hq hqtr
          obtain ⟨e2, he2, hek⟩ := hcov q hq
          exact absurd (hek.trans hqtr) (lookupDict_none_not_mem hcur e2 he2)
    | some cur =>
      rw [hcur] at hstep
      have hcurmem : (p.2, cur) ∈ acc := lookupDict_mem hcur
      have hstep2 : (if v0 > cur.2 then pure (dictSet acc p.2 (p.1, v0))
          else pure acc : Except Unit (List (Int × (Int × Int)))) = Except.ok acc2 := hstep
      clear hstep
      by_cases hgt : v0 > cur.2
      · rw [if_pos hgt] at hstep2
        simp only [pure, Except.pure] at hstep2
        have hacc2 : acc2 = dictSet acc p.2 (p.1, v0) := (Except.ok.inj hstep2).symm
        subst hacc2
        obtain ⟨hverc, l1, l2, hdec, hbefore, hafter⟩ := hent (p.2, cur) hcurmem
        have hckt : containsKey acc p.2 = true := containsKey_of_lookup hcur
        refine ⟨dictSet_keys_nodup hnd, ?_, ?_⟩
        · intro q hq
          rcases List.mem_append.mp hq with hq | hq
          · obtain ⟨e, he, hek⟩ := hcov q hq
            by_cases hek2 : e.1 = p.2
            · exact ⟨(p.2, (p.1, v0)), dictSet_mem_iff.mpr (Or.inl ⟨rfl, hckt⟩),
                hek2 ▸ hek⟩
            · exact ⟨e, dictSet_mem_iff.mpr (Or.inr (Or.inl ⟨hek2, he⟩)), hek⟩
          · rw [List.mem_singleton] at hq
            exact ⟨(p.2, (p.1, v0)), dictSet_mem_iff.mpr (Or.inl ⟨rfl, hckt⟩), by rw [hq]⟩
        · intro e he
          rcases dictSet_mem_iff.mp he with ⟨rfl, _⟩ | ⟨hne, he⟩ | ⟨rfl, hckf⟩
          · refine ⟨hv, scanned, [], by simp, ?_, by simp⟩
            intro q hq hqtr
            rw [hdec] at hq
            rcases List.mem_append.mp hq with hq | hq
            · obtain ⟨w, hw, hlt⟩ := hbefore q hq hqtr
              exact ⟨w, hw, hlt.trans hgt⟩
            · rcases List.mem_cons.mp hq with hq | hq
              · subst hq
                exact ⟨cur.2, hverc, hgt⟩
              · obtain ⟨w, hw, hle⟩ := hafter q hq hqtr
                exact ⟨w, hw, lt_of_le_of_lt hle hgt⟩
          · obtain ⟨hver, l1e, l2e, hdece, hbeforee, haftere⟩ := hent e he
            refine ⟨hver, l1e, l2e ++ [p], by rw [hdece]; simp, hbeforee, ?_⟩
            intro q hq hqtr
            rcases List.mem_append.mp hq with hq | hq
            · exact haftere q hq hqtr
            · rw [List.mem_singleton] at hq
              rw [hq] at hqtr
              exact absurd hqtr.symm hne
          · rw [hckt] at hckf
            cases hckf
      · rw [if_neg hgt] at hstep2
        simp only [pure, Except.pure] at hstep2
        have hacc2 : acc2 = acc := (Except.ok.inj hstep2).symm
        subst hacc2
        refine ⟨hnd, ?_, ?_⟩
        · intro q hq
          rcases List.mem_append.mp hq with hq | hq
          · exact hcov q hq
          · rw [List.mem_singleton] at hq
            exact ⟨(p.2, cur), hcurmem, by rw [hq]⟩
        · intro e he
          obtain ⟨hver, l1e, l2e, hdece, hbeforee, haftere⟩ := hent e he
          refine ⟨hver, l1e, l2e ++ [p], by rw [hdece]; simp, hbeforee, ?_⟩
          intro q hq hqtr
          rcases List.mem_append.mp hq with hq | hq
          · exact haftere q hq hqtr
          · rw [List.mem_singleton] at hq
            have hlk : lookupDict acc2 e.1 = some e.2 :=
              lookupDict_of_mem_nodup hnd (by rw [Prod.mk.eta]; exact he)
            rw [← hqtr, hq, hcur] at hlk
            have hecur : cur = e.2 := Option.some.inj hlk
            refine ⟨v0, by rw [hq]; exact hv, ?_⟩
            rw [← hecur]
            exact not_lt.mp hgt

lemma latest_fold_spec (tms : List (Int × TraceModelRec)) :
    ∀ (items scanned : List (Int × Int)) (acc out : List (Int × (Int × Int))),
      List.foldlM (latestStep tms) acc items = Except.ok out →
      LatestInv tms scanned acc →
      LatestInv tms (scanned ++ items) out := by
  intro items
  induction items with
  | nil =>
    intro scanned acc out h hinv
    simp only [List.foldlM_nil] at h
    cases h
    simpa using hinv
  | cons p rest ih =>
    intro scanned acc out h hinv
    rw [List.foldlM_cons] at h
    cases hstep : latestStep tms acc p with
    | error e =>
      rw [hstep] at h
      exact absurd h (by simp [bind, Except.bind])
    | ok acc2 =>
      rw [hstep] at h
      have h2 : List.foldlM (latestStep tms) acc2 rest = Except.ok out := by
        simpa [bind, Except.bind] using h
      have hinv2 := latestStep_preserves tms hstep hinv
      have := ih (scanned ++ [p]) acc2 out h2 hinv2
      simpa using this

/-- C5: within each transformation group of `trace_to_transformation`, the
latest-version selection keeps the trace with the numerically highest
version, comparing version values (not positions), with ties won by the
first-seen trace (strict `>`); and on the concrete group
`[(idx 5, v 1), (idx 6, v 3), (idx 7, v 2)]` the selected latest is
index 6. -/
theorem claim_C5_latest_version_selection (tms : List (Int × TraceModelRec))
    (t2t : List (Int × Int)) (out : List (Int × (Int × Int)))
    (h : buildLatest tms t2t = Except.ok out) :
    ((∀ q ∈ t2t, ∃ e ∈ out, e.1 = q.2) ∧
      ∀ e ∈ out, LatestEntrySpec tms t2t e.1 e.2.1 e.2.2) ∧
    (buildLatest
        [(5, ⟨5, none, none, none, some "1"⟩), (6, ⟨6, none, none, none, some "3"⟩),
         (7, ⟨7, none, none, none, some "2"⟩)] [(5, 100), (6, 100), (7, 100)] =
          Except.ok [(100, (6, 3))] ∧
      latestIndices [(100, (6, 3))] = [6]) := by
  refine ⟨?_, by decide, by decide⟩
  have hinv0 : LatestInv tms [] [] := ⟨by simp, by simp, by simp⟩
  have h2 : LatestInv tms t2t out := by
    simpa using latest_fold_spec tms t2t [] [] out h hinv0
  exact ⟨h2.2.1, h2.2.2⟩

/-- C5 witness: on the concrete group, the selection's single entry is
transformation 100 selecting trace 6 with version 3. -/
theorem claim_C5_witness :
    LatestEntrySpec
      [(5, ⟨5, none, none, none, some "1"⟩), (6, ⟨6, none, none, none, some "3"⟩),
       (7, ⟨7, none, none, none, some "2"⟩)]
      [(5, 100), (6, 100), (7, 100)] 100 6 3 := by
  have h := claim_C5_latest_version_selection
    [(5, ⟨5, none, none, none, some "1"⟩), (6, ⟨6, none, none, none, some "3"⟩),
     (7, ⟨7, none, none, none, some "2"⟩)]
    [(5, 100), (6, 100), (7, 100)] [(100, (6, 3))] (by decide)
  exact h.1.2 (100, (6, 3)) (by decide)

/-! ### Generic fold helpers -/

lemma except_bind_ok {α β : Type} {x : Except Unit α} {f : α → Except Unit β} {b : β}
    (h : (x >>= f) = Except.ok b) : ∃ a, x = Except.ok a ∧ f a = Except.ok b := by
  cases hx : x with
  | error e =>
    rw [hx] at h
    exact absurd h (by simp [bind, Except.bind])
  | ok a =>
    rw [hx] at h
    exact ⟨a, rfl, by simpa [bind, Except.bind] using h⟩

lemma foldlM_except_preserve {σ β : Type} (P : σ → Prop) (f : σ → β → Except Unit σ)
    (hf : ∀ s b s', f s b = Except.ok s' → P s → P s') :
    ∀ (items : List β) (s s' : σ), List.foldlM f s items = Except.ok s' → P s → P s' := by
  intro items
  induction items with
  | nil =>
    intro s s' h hs
    simp only [List.foldlM_nil] at h
    cases h
    exact hs
  | cons b rest ih =>
    intro s s' h hs
    rw [List.foldlM_cons] at h
    obtain ⟨s1, hs1, hrest⟩ := except_bind_ok h
    exact ih s1 s' hrest (hf s b s1 hs1 hs)

lemma lookupDict_append {α : Type} : ∀ (m1 m2 : List (Int × α)) (k : Int),
    lookupDict (m1 ++ m2) k =
      match lookupDict m1 k with
      | some v => some v
      | none => lookupDict m2 k := by
  intro m1
  induction m1 with
  | nil => simp [lookupDict]
  | cons p rest ih =>
    intro m2 k
    obtain ⟨k', v'⟩ := p
    by_cases hk : k' = k
    · simp [lookupDict, hk]
    · simp only [List.cons_append, lookupDict, if_neg hk]
      exact ih m2 k

lemma lookupDict_none_of_containsKey_false {α : Type} {m : List (Int × α)} {k : Int}
    (h : containsKey m k = false) : lookupDict m k = none := by
  cases hm : lookupDict m k with
  | none => rfl
  | some v =>
    rw [containsKey_of_lookup hm] at h
    cases h

lemma lookupDict_map_update {α : Type} (g : α → α) (k : Int) :
    ∀ (m : List (Int × α)) (k' : Int),
      lookupDict (m.map (fun p => if p.1 = k then (p.1, g p.2) else p)) k' =
        if k' = k then (lookupDict m k').map g else lookupDict m k' := by
  intro m
  induction m with
  | nil => simp [lookupDict]
  | cons p rest ih =>
    intro k'
    obtain ⟨pk, pv⟩ := p
    simp only [List.map_cons]
    by_cases hpk : pk = k
    · subst hpk
      rw [if_pos rfl]
      simp only [lookupDict]
      by_cases hpk' : pk = k'
      · simp [hpk']
      · simp [hpk', ih k']
    · rw [if_neg hpk]
      simp only [lookupDict]
      by_cases hpk' : pk = k'
      · have hk'k : ¬k' = k := by
          rw [← hpk']
          exact hpk
        simp [hpk', hk'k]
      · simp [hpk', ih k']

lemma depsLookup_dictAppendTo (m : List (Int × List Int)) (k v k' : Int) :
    depsLookup (dictAppendTo m k v) k' =
      if k' = k then depsLookup m k' ++ [v] else depsLookup m k' := by
  unfold dictAppendTo
  cases hck : containsKey m k with
  | true =>
    rw [if_pos rfl]
    unfold depsLookup
    have hmap : (fun p : Int × List Int => if p.1 = k then (p.1, p.2 ++ [v]) else p) =
        (fun p : Int × List Int => if p.1 = k then (p.1, (fun l => l ++ [v]) p.2) else p) := rfl
    rw [hmap]
    rw [lookupDict_map_update (fun l => l ++ [v]) k m k']
    by_cases hkk : k' = k
    · rw [if_pos hkk, if_pos hkk]
      cases hm : lookupDict m k' with
      | some w => simp
      | none =>
        exfalso
        rw [hkk] at hm
        obtain ⟨e, he, hek⟩ := (containsKey_true_iff m k).mp hck
        exact lookupDict_none_not_mem hm e he hek
    · rw [if_neg hkk, if_neg hkk]
  | false =>
    rw [if_neg (by simp)]
    unfold depsLookup
    rw [lookupDict_append]
    have hnone : lookupDict m k = none := lookupDict_none_of_containsKey_false hck
    by_cases hkk : k' = k
    · subst hkk
      rw [hnone]
      simp [lookupDict]
    · rw [if_neg hkk]
      cases hm : lookupDict m k' with
      | some w => simp
      | none =>
        have hkk2 : ¬k = k' := fun h => hkk h.symm
        simp [lookupDict, hkk2]

lemma t2tInnerStep_nodup (transs : List (Int × TransRec)) (t : Int) :
    ∀ (acc : List (Int × Int)) (q : Int × Int) (out : List (Int × Int)),
      t2tInnerStep transs t acc q = Except.ok out →
      (acc.map Prod.fst).Nodup → (out.map Prod.fst).Nodup := by
  intro acc q out h hn
  unfold t2tInnerStep at h
  by_cases hq : q.2 = t
  · rw [if_pos hq] at h
    obtain ⟨r, _, h2⟩ := except_bind_ok h
    cases r with
    | none =>
      simp only [pure, Except.pure] at h2
      rw [← Except.ok.inj h2]
      exact hn
    | some tr =>
      simp only [pure, Except.pure] at h2
      rw [← Except.ok.inj h2]
      exact dictSet_keys_nodup hn
  · rw [if_neg hq] at h
    simp only [pure, Except.pure] at h
    rw [← Except.ok.inj h]
    exact hn

lemma buildTraceToTrans_keys_nodup {st : GenState} {e2t t2t : List (Int × Int)}
    (h : buildTraceToTrans st e2t = Except.ok t2t) : (t2t.map Prod.fst).Nodup := by
  unfold buildTraceToTrans at h
  refine foldlM_except_preserve (fun m => (m.map Prod.fst).Nodup) _ ?_
    st.trace_models [] t2t h (by simp)
  intro s b s' hs hn
  unfold t2tOuterStep at hs
  exact foldlM_except_preserve (fun m => (m.map Prod.fst).Nodup) _
    (fun acc q out hst hnn => t2tInnerStep_nodup st.transformations b.1 acc q out hst hnn)
    e2t s s' hs hn

lemma getTrans_ok {transs : List (Int × TransRec)} {k : Int} {tr : TransRec}
    (h : getTrans transs k = Except.ok tr) : lookupDict transs k = some tr := by
  unfold getTrans at h
  cases hl : lookupDict transs k with
  | none =>
    rw [hl] at h
    cases h
  | some tr2 =>
    rw [hl] at h
    rw [Except.ok.inj h]

lemma depsInner_fold_spec (transs : List (Int × TransRec)) (ancPairs : List (Int × Int))
    (a : Int) (outs : List (Option Int)) :
    ∀ (items : List (Int × Int)) (acc D : List (Int × List Int)),
      List.foldlM (depsInnerStep transs ancPairs a outs) acc items = Except.ok D →
      (∀ x, x ≠ a → depsLookup D x = depsLookup acc x) ∧
      ∀ b, b ∈ depsLookup D a ↔ (b ∈ depsLookup acc a ∨
        ∃ q ∈ items, q.1 = b ∧ a ≠ b ∧ ¬((a, b) ∈ ancPairs ∨ (b, a) ∈ ancPairs) ∧
          ∃ trBd ins, lookupDict transs q.2 = some trBd ∧
            resolve_references_list trBd.IN = Except.ok ins ∧
            outs.any (fun o => decide (o ∈ ins)) = true) := by
  intro items
  induction items with
  | nil =>
    intro acc D h
    simp only [List.foldlM_nil] at h
    cases h
    exact ⟨fun x _ => rfl, fun b => by simp⟩
  | cons q0 rest ih =>
    intro acc D h
    rw [List.foldlM_cons] at h
    obtain ⟨acc1, hstep, hrest⟩ := except_bind_ok h
    obtain ⟨hframe, hiff⟩ := ih acc1 D hrest
    unfold depsInnerStep at hstep
    by_cases hq1 : a = q0.1
    · rw [if_pos hq1] at hstep
      simp only [pure, Except.pure] at hstep
      have hacc1 : acc1 = acc := (Except.ok.inj hstep).symm
      rw [hacc1] at hframe hiff
      refine ⟨hframe, ?_⟩
      intro b
      rw [hiff b]
      constructor
      · rintro (hb | ⟨q, hqmem, hrest2⟩)
        · exact Or.inl hb
        · exact Or.inr ⟨q, List.mem_cons_of_mem _ hqmem, hrest2⟩
      · rintro (hb | ⟨q, hqmem, hq1b, hab, hrest2⟩)
        · exact Or.inl hb
        · rcases List.mem_cons.mp hqmem with hq | hq
          · rw [hq] at hq1b
            exact absurd (hq1.trans hq1b) hab
          · exact Or.inr ⟨q, hq, hq1b, hab, hrest2⟩
    · rw [if_neg hq1] at hstep
      by_cases hanc : (a, q0.1) ∈ ancPairs ∨ (q0.1, a) ∈ ancPairs
      · rw [if_pos hanc] at hstep
        simp only [pure, Except.pure] at hstep
        have hacc1 : acc1 = acc := (Except.ok.inj hstep).symm
        rw [hacc1] at hframe hiff
        refine ⟨hframe, ?_⟩
        intro b
        rw [hiff b]
        constructor
        · rintro (hb | ⟨q, hqmem, hrest2⟩)
          · exact Or.inl hb
          · exact Or.inr ⟨q, List.mem_cons_of_mem _ hqmem, hrest2⟩
        · rintro (hb | ⟨q, hqmem, hq1b, hab, hancb, hrest2⟩)
          · exact Or.inl hb
          · rcases List.mem_cons.mp hqmem with hq | hq
            · rw [hq] at hq1b
              rw [← hq1b] at hancb
              exact absurd hanc hancb
            · exact Or.inr ⟨q, hq, hq1b, hab, hancb, hrest2⟩
      · rw [if_neg hanc] at hstep
        obtain ⟨trBd, htr, hstep2⟩ := except_bind_ok hstep
        obtain ⟨ins, hins, hstep3⟩ := except_bind_ok hstep2
        have htr2 : lookupDict transs q0.2 = some trBd := getTrans_ok htr
        by_cases hany : outs.any (fun o => decide (o ∈ ins)) = true
        · rw [if_pos hany] at hstep3
          simp only [pure, Except.pure] at hstep3
          have hacc1 : acc1 = dictAppendTo acc a q0.1 := (Except.ok.inj hstep3).symm
          rw [hacc1] at hframe hiff
          refine ⟨?_, ?_⟩
          · intro x hx
            rw [hframe x hx, depsLookup_dictAppendTo, if_neg hx]
          · intro b
            rw [hiff b, depsLookup_dictAppendTo, if_pos rfl]
            rw [List.mem_append, List.mem_singleton]
            constructor
            · rintro ((hb | hb) | ⟨q, hqmem, hrest2⟩)
              · exact Or.inl hb
              · exact Or.inr ⟨q0, List.mem_cons_self _ _, hb.symm, by rw [hb]; exact hq1,
                  by rw [hb]; exact hanc, trBd, ins, htr2, hins, hany⟩
              · exact Or.inr ⟨q, List.mem_cons_of_mem _ hqmem, hrest2⟩
            · rintro (hb | ⟨q, hqmem, hq1b, hab, hancb, hrest2⟩)
              · exact Or.inl (Or.inl hb)
              · rcases List.mem_cons.mp hqmem with hq | hq
                · rw [hq] at hq1b
                  exact Or.inl (Or.inr hq1b.symm)
                · exact Or.inr ⟨q, hq, hq1b, hab, hancb, hrest2⟩
        · rw [if_neg hany] at hstep3
          simp only [pure, Except.pure] at hstep3
          have hacc1 : acc1 = acc := (Except.ok.inj hstep3).symm
          rw [hacc1] at hframe hiff
          refine ⟨hframe, ?_⟩
          intro b
          rw [hiff b]
          constructor
          · rintro (hb | ⟨q, hqmem, hrest2⟩)
            · exact Or.inl hb
            · exact Or.inr ⟨q, List.mem_cons_of_mem _ hqmem, hrest2⟩
          · rintro (hb | ⟨q, hqmem, hq1b, hab, hancb, trBd2, ins2, htr3, hins2, hany2⟩)
            · exact Or.inl hb
            · rcases List.mem_cons.mp hqmem with hq | hq
              · rw [hq] at htr3
                rw [htr2] at htr3
                have hbd : trBd2 = trBd := (Option.some.inj htr3).symm
                rw [hbd] at hins2
                rw [hins] at hins2
                have hin2 : ins2 = ins := (Except.ok.inj hins2).symm
                rw [hin2] at hany2
                exact absurd hany2 hany
              · exact Or.inr ⟨q, hq, hq1b, hab, hancb, trBd2, ins2, htr3, hins2, hany2⟩

lemma depsOuter_fold_spec (transs : List (Int × TransRec)) (ancPairs : List (Int × Int))
    (latest : List Int) (t2t : List (Int × Int)) :
    ∀ (items : List (Int × Int)) (acc D : List (Int × List Int)),
      List.foldlM (depsOuterStep transs ancPairs latest t2t) acc items = Except.ok D →
      (∀ x, (∀ q ∈ items, q.1 ≠ x) → depsLookup D x = depsLookup acc x) ∧
      ((items.map Prod.fst).Nodup →
        ∀ p ∈ items, ∀ b,
          b ∈ depsLookup D p.1 ↔ (b ∈ depsLookup acc p.1 ∨
            (p.1 ∈ latest ∧ ∃ trAd outs, lookupDict transs p.2 = some trAd ∧
              resolve_references_list trAd.OUT = Except.ok outs ∧
              ∃ q ∈ t2t, q.1 = b ∧ p.1 ≠ b ∧
                ¬((p.1, b) ∈ ancPairs ∨ (b, p.1) ∈ ancPairs) ∧
                ∃ trBd ins, lookupDict transs q.2 = some trBd ∧
                  resolve_references_list trBd.IN = Except.ok ins ∧
                  outs.any (fun o => decide (o ∈ ins)) = true))) := by
  intro items
  induction items with
  | nil =>
    intro acc D h
    simp only [List.foldlM_nil] at h
    cases h
    exact ⟨fun x _ => rfl, fun _ p hp => absurd hp (by simp)⟩
  | cons p0 rest ih =>
    intro acc D h
    rw [List.foldlM_cons] at h
    obtain ⟨acc1, hstep, hrest⟩ := except_bind_ok h
    obtain ⟨ihframe, ihmain⟩ := ih acc1 D hrest
    unfold depsOuterStep at hstep
    by_cases hp0 : p0.1 ∈ latest
    · rw [if_pos hp0] at hstep
      obtain ⟨trAd, htrA, hstep2⟩ := except_bind_ok hstep
      obtain ⟨outs, houts, hinner⟩ := except_bind_ok hstep2
      have htrA2 : lookupDict transs p0.2 = some trAd := getTrans_ok htrA
      unfold depsInner at hinner
      obtain ⟨iframe, iiff⟩ := depsInner_fold_spec transs ancPairs p0.1 outs t2t acc acc1 hinner
      refine ⟨?_, ?_⟩
      · intro x hx
        have hxrest : ∀ q ∈ rest, q.1 ≠ x := fun q hq => hx q (List.mem_cons_of_mem _ hq)
        rw [ihframe x hxrest]
        exact iframe x (fun hc => hx p0 (List.mem_cons_self _ _) hc.symm)
      · intro hnd p hp b
        rw [List.map_cons, List.nodup_cons] at hnd
        rcases List.mem_cons.mp hp with hpp | hpp
        · have hrestne : ∀ q ∈ rest, q.1 ≠ p.1 := by
            intro q hq hc
            rw [hpp] at hc
            exact hnd.1 (hc ▸ List.mem_map.mpr ⟨q, hq, rfl⟩)
          rw [ihframe p.1 hrestne]
          rw [hpp]
          rw [iiff b]
          constructor
          · rintro (hb | hcond)
            · exact Or.inl hb
            · exact Or.inr ⟨hp0, trAd, outs, htrA2, houts, hcond⟩
          · rintro (hb | ⟨-, trAd2, outs2, htrA3, houts2, hcond⟩)
            · exact Or.inl hb
            · rw [htrA2] at htrA3
              have h1 : trAd2 = trAd := (Option.some.inj htrA3).symm
              rw [h1] at houts2
              rw [houts] at houts2
              have h2 : outs2 = outs := (Except.ok.inj houts2).symm
              rw [h2] at hcond
              exact Or.inr hcond
        · have hne : p.1 ≠ p0.1 := by
            intro hc
            exact hnd.1 (hc ▸ List.mem_map.mpr ⟨p, hpp, rfl⟩)
          have := ihmain hnd.2 p hpp b
          rw [iframe p.1 hne] at this
          exact this
    · rw [if_neg hp0] at hstep
      simp only [pure, Except.pure] at hstep
      have hacc1 : acc1 = acc := (Except.ok.inj hstep).symm
      rw [hacc1] at ihframe ihmain
      refine ⟨?_, ?_⟩
      · intro x hx
        exact ihframe x (fun q hq => hx q (List.mem_cons_of_mem _ hq))
      · intro hnd p hp b
        rw [List.map_cons, List.nodup_cons] at hnd
        rcases List.mem_cons.mp hp with hpp | hpp
        · have hrestne : ∀ q ∈ rest, q.1 ≠ p.1 := by
            intro q hq hc
            rw [hpp] at hc
            exact hnd.1 (hc ▸ List.mem_map.mpr ⟨q, hq, rfl⟩)
          rw [ihframe p.1 hrestne]
          rw [hpp]
          constructor
          · intro hb
            exact Or.inl hb
          · rintro (hb | ⟨hlat, -⟩)
            · exact hb
            · exact absurd hlat hp0
        · exact ihmain hnd.2 p hpp b

lemma build_dep_edge_iff (st : GenState) (G : GlobalTrace)
    (ap : List (Int × Int)) (lt : List (Int × (Int × Int)))
    (hG : build_global_trace st = Except.ok G)
    (hap : buildAncestorPairs st.trace_models = Except.ok ap)
    (hlt : buildLatest st.trace_models G.trace_to_transformation = Except.ok lt)
    (A trA B trB : Int)
    (hA : (A, trA) ∈ G.trace_to_transformation)
    (hB : (B, trB) ∈ G.trace_to_transformation) :
    B ∈ depsLookup G.trace_dependencies A ↔
      (A ≠ B ∧ A ∈ latestIndices lt ∧ ¬((A, B) ∈ ap ∨ (B, A) ∈ ap) ∧
        ∃ trAd trBd outs ins,
          lookupDict st.transformations trA = some trAd ∧
          lookupDict st.transformations trB = some trBd ∧
          resolve_references_list trAd.OUT = Except.ok outs ∧
          resolve_references_list trBd.IN = Except.ok ins ∧
          ∃ o, o ∈ outs ∧ o ∈ ins) := by
  unfold build_global_trace at hG
  obtain ⟨e2t, he2t, h2⟩ := except_bind_ok hG
  obtain ⟨t2t, ht2t, h3⟩ := except_bind_ok h2
  obtain ⟨ap0, hap0, h4⟩ := except_bind_ok h3
  obtain ⟨lt0, hlt0, h5⟩ := except_bind_ok h4
  obtain ⟨deps, hdeps, h6⟩ := except_bind_ok h5
  simp only [pure, Except.pure] at h6
  have hGv : G = ⟨t2t, deps, e2t⟩ := (Except.ok.inj h6).symm
  subst hGv
  simp only at hA hB hlt ⊢
  have hapv : ap = ap0 := by
    rw [hap0] at hap
    exact (Except.ok.inj hap).symm
  subst hapv
  have hltv : lt = lt0 := by
    rw [hlt0] at hlt
    exact (Except.ok.inj hlt).symm
  subst hltv
  have hnd : (t2t.map Prod.fst).Nodup := buildTraceToTrans_keys_nodup ht2t
  unfold buildDeps at hdeps
  have hmain := (depsOuter_fold_spec st.transformations ap (latestIndices lt) t2t
    t2t [] deps hdeps).2 hnd (A, trA) hA B
  simp only [depsLookup, lookupDict, Option.getD_none] at hmain
  rw [show depsLookup deps A = (lookupDict deps A).getD [] from rfl]
  rw [hmain]
  constructor
  · rintro (hb | ⟨hlat, trAd, outs, hlA, hoA, q, hqmem, hq1, hne, hanc, trBd2, ins, hlB2, hoB, hany⟩)
    · exact absurd hb (List.not_mem_nil B)
    · have hq2 : q.2 = trB := by
        have hqq : (B, q.2) ∈ t2t := by
          rw [← hq1]
          exact hqmem
        have l1 := lookupDict_of_mem_nodup hnd hqq
        have l2 := lookupDict_of_mem_nodup hnd hB
        rw [l1] at l2
        exact Option.some.inj l2
      rw [hq2] at hlB2
      obtain ⟨o, ho1, ho2⟩ := List.any_eq_true.mp hany
      exact ⟨hne, hlat, hanc, trAd, trBd2, outs, ins, hlA, hlB2, hoA, hoB,
        o, ho1, of_decide_eq_true ho2⟩
  · rintro ⟨hne, hlat, hanc, trAd, trBd2, outs, ins, hlA, hlB2, hoA, hoB, o, ho1, ho2⟩
    exact Or.inr ⟨hlat, trAd, outs, hlA, hoA, (B, trB), hB, rfl, hne, hanc,
      trBd2, ins, hlB2, hoB, List.any_eq_true.mpr ⟨o, ho1, decide_eq_true ho2⟩⟩

/-- C1: for distinct mapped TraceModels `A` and `B`, a successfully built
global trace contains the dependency edge `A → B` exactly when `A` is the
selected latest trace of its transformation, `A` and `B` are not related
by an ancestor pair in either direction, and some resolved output index
of `A`'s transformation occurs among the resolved input indices of `B`'s
transformation; in particular, ancestor-related traces get no dependency
edge in either direction. -/
theorem claim_C1_dependency_edges (st : GenState) (G : GlobalTrace)
    (ap : List (Int × Int)) (lt : List (Int × (Int × Int)))
    (hG : build_global_trace st = Except.ok G)
    (hap : buildAncestorPairs st.trace_models = Except.ok ap)
    (hlt : buildLatest st.trace_models G.trace_to_transformation = Except.ok lt)
    (A trA B trB : Int)
    (hA : (A, trA) ∈ G.trace_to_transformation)
    (hB : (B, trB) ∈ G.trace_to_transformation) :
    (B ∈ depsLookup G.trace_dependencies A ↔
      (A ≠ B ∧ A ∈ latestIndices lt ∧ ¬((A, B) ∈ ap ∨ (B, A) ∈ ap) ∧
        ∃ trAd trBd outs ins,
          lookupDict st.transformations trA = some trAd ∧
          lookupDict st.transformations trB = some trBd ∧
          resolve_references_list trAd.OUT = Except.ok outs ∧
          resolve_references_list trBd.IN = Except.ok ins ∧
          ∃ o, o ∈ outs ∧ o ∈ ins)) ∧
    (((A, B) ∈ ap ∨ (B, A) ∈ ap) →
      B ∉ depsLookup G.trace_dependencies A ∧ A ∉ depsLookup G.trace_dependencies B) := by
  refine ⟨build_dep_edge_iff st G ap lt hG hap hlt A trA B trB hA hB, ?_⟩
  intro hanc
  constructor
  · intro hmem
    obtain ⟨-, -, hnanc, -⟩ :=
      (build_dep_edge_iff st G ap lt hG hap hlt A trA B trB hA hB).mp hmem
    exact hnanc hanc
  · intro hmem
    obtain ⟨-, -, hnanc, -⟩ :=
      (build_dep_edge_iff st G ap lt hG hap hlt B trB A trA hB hA).mp hmem
    exact hnanc (hanc.elim (fun h => Or.inr h) (fun h => Or.inl h))

/-- C1 witness: in the two-trace build, the edge `0 → 1` is present, via
the shared model index 10. -/
theorem claim_C1_witness : (1 : Int) ∈ depsLookup [(0, [1])] 0 := by
  have h := claim_C1_dependency_edges stTwoTraces
    ⟨[(0, 4), (1, 5)], [(0, [1])], [(2, 0), (3, 1)]⟩ [] [(4, (0, 1)), (5, (1, 1))]
    (by decide) (by decide) (by decide) 0 4 1 5 (by decide) (by decide)
  exact h.1.mpr ⟨by decide, by decide, by decide,
    ⟨4, some "T1", some "//@nodes.2", none, some "//@nodes.10"⟩,
    ⟨5, some "T2", some "//@nodes.3", some "//@nodes.10", none⟩,
    [some 10], [some 10], by decide, by decide, by decide, by decide,
    some 10, by decide, by decide⟩

/-! ### Decimal-representation roundtrip (for the synthesized `//@nodes.i`
references of the dialect-merge pass) -/

lemma toDigitsCore_fuel : ∀ (n f1 f2 : Nat) (ds : List Char), n < f1 → n < f2 →
    Nat.toDigitsCore 10 f1 n ds = Nat.toDigitsCore 10 f2 n ds := by
  intro n
  induction n using Nat.strong_induction_on with
  | _ n ih =>
    intro f1 f2 ds h1 h2
    cases f1 with
    | zero => omega
    | succ g1 =>
      cases f2 with
      | zero => omega
      | succ g2 =>
        simp only [Nat.toDigitsCore]
        by_cases hz : n / 10 = 0
        · rw [if_pos hz, if_pos hz]
        · rw [if_neg hz, if_neg hz]
          have hlt : n / 10 < n := Nat.div_lt_self (by omega) (by omega)
          exact ih (n / 10) hlt g1 g2 _ (by omega) (by omega)

lemma toDigitsCore_append : ∀ (n f : Nat) (ds : List Char), n < f →
    Nat.toDigitsCore 10 f n ds = Nat.toDigitsCore 10 f n [] ++ ds := by
  intro n
  induction n using Nat.strong_induction_on with
  | _ n ih =>
    intro f ds hf
    cases f with
    | zero => omega
    | succ g =>
      simp only [Nat.toDigitsCore]
      by_cases hz : n / 10 = 0
      · rw [if_pos hz, if_pos hz]
        rfl
      · rw [if_neg hz, if_neg hz]
        have hlt : n / 10 < n := Nat.div_lt_self (by omega) (by omega)
        have hg : n / 10 < g := by omega
        rw [ih (n / 10) hlt g _ hg, ih (n / 10) hlt g [Nat.digitChar (n % 10)] hg]
        simp

lemma toDigits_step (n : Nat) (h : 10 ≤ n) :
    Nat.toDigits 10 n = Nat.toDigits 10 (n / 10) ++ [Nat.digitChar (n % 10)] := by
  unfold Nat.toDigits
  have hz : ¬n / 10 = 0 := by
    intro hc
    have := Nat.div_eq_of_lt (show n < 10 by omega)
    omega
  have h1 : Nat.toDigitsCore 10 (n + 1) n [] =
      Nat.toDigitsCore 10 n (n / 10) [Nat.digitChar (n % 10)] := by
    simp only [Nat.toDigitsCore]
    rw [if_neg hz]
  rw [h1]
  have hlt : n / 10 < n := Nat.div_lt_self (by omega) (by omega)
  rw [toDigitsCore_append (n / 10) n _ hlt]
  rw [toDigitsCore_fuel (n / 10) n (n / 10 + 1) [] hlt (by omega)]

lemma toDigits_lt (n : Nat) (h : n < 10) : Nat.toDigits 10 n = [Nat.digitChar n] := by
  unfold Nat.toDigits
  have hz : n / 10 = 0 := Nat.div_eq_of_lt h
  simp only [Nat.toDigitsCore]
  rw [if_pos hz, Nat.mod_eq_of_lt h]

lemma digitVal_digitChar (k : Nat) (h : k < 10) : digitVal (Nat.digitChar k) = some k := by
  interval_cases k <;> decide

lemma toDigits_all_digit : ∀ n : Nat, ∀ c ∈ Nat.toDigits 10 n, (digitVal c).isSome = true := by
  intro n
  induction n using Nat.strong_induction_on with
  | _ n ih =>
    intro c hc
    by_cases h : n < 10
    · rw [toDigits_lt n h] at hc
      rw [List.mem_singleton] at hc
      subst hc
      rw [digitVal_digitChar n h]
      rfl
    · rw [toDigits_step n (by omega)] at hc
      rcases List.mem_append.mp hc with hc | hc
      · exact ih (n / 10) (Nat.div_lt_self (by omega) (by omega)) c hc
      · rw [List.mem_singleton] at hc
        subst hc
        rw [digitVal_digitChar (n % 10) (Nat.mod_lt _ (by omega))]
        rfl

lemma toDigits_ne_nil (n : Nat) : Nat.toDigits 10 n ≠ [] := by
  by_cases h : n < 10
  · rw [toDigits_lt n h]
    simp
  · rw [toDigits_step n (by omega)]
    simp

lemma digitVal_isSome_mem {c : Char} (h : (digitVal c).isSome = true) :
    c = '0' ∨ c = '1' ∨ c = '2' ∨ c = '3' ∨ c = '4' ∨ c = '5' ∨ c = '6' ∨ c = '7' ∨
      c = '8' ∨ c = '9' := by
  unfold digitVal at h
  by_cases h0 : c = '0'
  · exact Or.inl h0
  rw [if_neg h0] at h
  by_cases h1 : c = '1'
  · exact Or.inr (Or.inl h1)
  rw [if_neg h1] at h
  by_cases h2 : c = '2'
  · exact Or.inr (Or.inr (Or.inl h2))
  rw [if_neg h2] at h
  by_cases h3 : c = '3'
  · exact Or.inr (Or.inr (Or.inr (Or.inl h3)))
  rw [if_neg h3] at h
  by_cases h4 : c = '4'
  · exact Or.inr (Or.inr (Or.inr (Or.inr (Or.inl h4))))
  rw [if_neg h4] at h
  by_cases h5 : c = '5'
  · exact Or.inr (Or.inr (Or.inr (Or.inr (Or.inr (Or.inl h5)))))
  rw [if_neg h5] at h
  by_cases h6 : c = '6'
  · exact Or.inr (Or.inr (Or.inr (Or.inr (Or.inr (Or.inr (Or.inl h6))))))
  rw [if_neg h6] at h
  by_cases h7 : c = '7'
  · exact Or.inr (Or.inr (Or.inr (Or.inr (Or.inr (Or.inr (Or.inr (Or.inl h7)))))))
  rw [if_neg h7] at h
  by_cases h8 : c = '8'
  · exact Or.inr (Or.inr (Or.inr (Or.inr (Or.inr (Or.inr (Or.inr (Or.inr (Or.inl h8))))))))
  rw [if_neg h8] at h
  by_cases h9 : c = '9'
  · exact Or.inr (Or.inr (Or.inr (Or.inr (Or.inr (Or.inr (Or.inr (Or.inr (Or.inr h9))))))))
  rw [if_neg h9] at h
  exact absurd h (by simp)

lemma digit_char_props {c : Char} (h : (digitVal c).isSome = true) :
    isPyWs c = false ∧ ¬c = '.' ∧ ¬c = '_' ∧ ¬c = '-' ∧ ¬c = '+' := by
  rcases digitVal_isSome_mem h with h | h | h | h | h | h | h | h | h | h <;> subst h <;>
    exact ⟨by decide, by decide, by decide, by decide, by decide⟩

lemma ne_underscore_of_digit {c : Char} (h : (digitVal c).isSome = true) : ¬c = '_' :=
  (digit_char_props h).2.2.1

lemma pyDigitsAux_cons_digit {x : Char} {dx : Nat} (hdx : digitVal x = some dx)
    (acc : Nat) (rest : List Char) :
    pyDigitsAux acc (x :: rest) = pyDigitsAux (acc * 10 + dx) rest := by
  have hx : ¬x = '_' := ne_underscore_of_digit (by rw [hdx]; rfl)
  rw [pyDigitsAux.eq_def]
  simp only [if_neg hx, hdx]

lemma pyDigits_cons_digit {x : Char} {dx : Nat} (hdx : digitVal x = some dx)
    (rest : List Char) : pyDigits (x :: rest) = pyDigitsAux dx rest := by
  rw [pyDigits.eq_def]
  simp only [hdx]

lemma pyDigitsAux_append {c : Char} {d : Nat} (hc : digitVal c = some d) :
    ∀ (xs : List Char) (acc : Nat), (∀ x ∈ xs, (digitVal x).isSome = true) →
      pyDigitsAux acc (xs ++ [c]) = (pyDigitsAux acc xs).map (fun v => v * 10 + d) := by
  intro xs
  induction xs with
  | nil =>
    intro acc _
    simp only [List.nil_append]
    rw [pyDigitsAux_cons_digit hc]
    rfl
  | cons x rest ih =>
    intro acc hall
    have hx : (digitVal x).isSome = true := hall x (List.mem_cons_self _ _)
    obtain ⟨dx, hdx⟩ := Option.isSome_iff_exists.mp hx
    rw [List.cons_append, pyDigitsAux_cons_digit hdx, pyDigitsAux_cons_digit hdx]
    exact ih (acc * 10 + dx) (fun y hy => hall y (List.mem_cons_of_mem _ hy))

lemma pyDigits_append {c : Char} {d : Nat} (hc : digitVal c = some d)
    (xs : List Char) (hne : xs ≠ []) (hall : ∀ x ∈ xs, (digitVal x).isSome = true) :
    pyDigits (xs ++ [c]) = (pyDigits xs).map (fun v => v * 10 + d) := by
  cases xs with
  | nil => exact absurd rfl hne
  | cons x rest =>
    have hx : (digitVal x).isSome = true := hall x (List.mem_cons_self _ _)
    obtain ⟨dx, hdx⟩ := Option.isSome_iff_exists.mp hx
    rw [List.cons_append, pyDigits_cons_digit hdx, pyDigits_cons_digit hdx]
    exact pyDigitsAux_append hc rest dx (fun y hy => hall y (List.mem_cons_of_mem _ hy))

lemma pyDigits_digitChar (k : Nat) (h : k < 10) :
    pyDigits [Nat.digitChar k] = some k := by
  interval_cases k <;> decide

lemma pyDigits_toDigits : ∀ n : Nat, pyDigits (Nat.toDigits 10 n) = some n := by
  intro n
  induction n using Nat.strong_induction_on with
  | _ n ih =>
    by_cases h : n < 10
    · rw [toDigits_lt n h]
      exact pyDigits_digitChar n h
    · rw [toDigits_step n (by omega)]
      rw [pyDigits_append (digitVal_digitChar (n % 10) (Nat.mod_lt _ (by omega)))
        (Nat.toDigits 10 (n / 10)) (toDigits_ne_nil _) (toDigits_all_digit _)]
      rw [ih (n / 10) (Nat.div_lt_self (by omega) (by omega))]
      rw [show Option.map (fun v => v * 10 + n % 10) (some (n / 10)) =
        some (n / 10 * 10 + n % 10) from rfl]
      congr 1
      omega

lemma dropWhile_eq_self_of_all_false {p : Char → Bool} {l : List Char}
    (h : ∀ c ∈ l, p c = false) : l.dropWhile p = l := by
  cases l with
  | nil => rfl
  | cons c rest =>
    rw [List.dropWhile_cons]
    rw [h c (List.mem_cons_self _ _)]
    simp

lemma pyStrip_eq_self {l : List Char} (h : ∀ c ∈ l, isPyWs c = false) : pyStrip l = l := by
  unfold pyStrip
  rw [dropWhile_eq_self_of_all_false h]
  rw [dropWhile_eq_self_of_all_false (fun c hc => h c (List.mem_reverse.mp hc))]
  exact List.reverse_reverse l

lemma pyInt_all_digits {l : List Char} (hne : l ≠ [])
    (hall : ∀ c ∈ l, (digitVal c).isSome = true) :
    pyInt? l = (pyDigits l).map (fun n => (n : Int)) := by
  unfold pyInt?
  rw [pyStrip_eq_self (fun c hc => (digit_char_props (hall c hc)).1)]
  cases l with
  | nil => exact absurd rfl hne
  | cons x rest =>
    have hx := digit_char_props (hall x (List.mem_cons_self _ _))
    show (if x = '-' then (pyDigits rest).map (fun n => -(n : Int))
      else if x = '+' then (pyDigits rest).map (fun n => (n : Int))
      else (pyDigits (x :: rest)).map (fun n => (n : Int))) = _
    rw [if_neg hx.2.2.2.1, if_neg hx.2.2.2.2]

lemma pyInt_toDigits (n : Nat) : pyInt? (Nat.toDigits 10 n) = some ((n : Nat) : Int) := by
  rw [pyInt_all_digits (toDigits_ne_nil n) (toDigits_all_digit n)]
  rw [pyDigits_toDigits n]
  rfl

lemma splitPred_append_sep (p : Char → Bool) {c : Char} (hc : p c = true) :
    ∀ (l1 l2 : List Char),
      splitPred p (l1 ++ c :: l2) = splitPred p l1 ++ splitPred p l2 := by
  intro l1
  induction l1 with
  | nil =>
    intro l2
    simp only [List.nil_append, splitPred, hc, if_true]
    rfl
  | cons c0 rest ih =>
    intro l2
    simp only [List.cons_append, splitPred]
    cases hp : p c0 with
    | true => simp [ih l2]
    | false =>
      simp only [Bool.false_eq_true, if_false]
      rw [show List.append rest (c :: l2) = rest ++ c :: l2 from rfl]
      rw [ih l2]
      cases hsp : splitPred p rest with
      | nil => exact absurd hsp (splitPred_ne_nil p rest)
      | cons g gs => simp

lemma string_append_toList (a b : String) : (a ++ b).toList = a.toList ++ b.toList :=
  String.data_append a b

lemma nodesToken_toList (m : Nat) :
    ("//@nodes." ++ toString ((m : Int))).toList =
      "//@nodes".toList ++ '.' :: Nat.toDigits 10 m := by
  rw [string_append_toList]
  rw [show (toString ((m : Int))).toList = Nat.toDigits 10 m from rfl]
  rfl

lemma nodesToken_no_ws (m : Nat) :
    ∀ c ∈ ("//@nodes." ++ toString ((m : Int))).toList, isPyWs c = false := by
  have hpre : ∀ c ∈ ("//@nodes".toList : List Char), isPyWs c = false := by decide
  intro c hc
  rw [nodesToken_toList] at hc
  rcases List.mem_append.mp hc with hc | hc
  · exact hpre c hc
  · rcases List.mem_cons.mp hc with hc | hc
    · subst hc
      decide
    · exact (digit_char_props (toDigits_all_digit m c hc)).1

lemma resolve_nodes_token (m : Nat) :
    resolve_reference (some ("//@nodes." ++ toString ((m : Int)))) =
      Except.ok (some ((m : Nat) : Int)) := by
  have htl := nodesToken_toList m
  have hne : ("//@nodes." ++ toString ((m : Int))).toList ≠ [] := by
    rw [htl]
    simp
  have ht := pyTruthy_some_true _ hne
  have hsplit : splitPred (fun c => decide (c = '.'))
      ("//@nodes." ++ toString ((m : Int))).toList =
        ["//@nodes".toList, Nat.toDigits 10 m] := by
    rw [htl, splitPred_append_sep (fun c => decide (c = '.')) (by decide)]
    rw [splitPred_no_sep _ _ (by decide)]
    rw [splitPred_no_sep _ _ (fun c hc => by
      simp only [decide_eq_false_iff_not]
      exact (digit_char_props (toDigits_all_digit m c hc)).2.1)]
    rfl
  have hsd : splitPred (fun c => decide (c = '.'))
      ("//@nodes." ++ toString ((m : Int))).data =
        ["//@nodes".toList, Nat.toDigits 10 m] := hsplit
  unfold resolve_reference
  rw [ht]
  rw [if_neg (by simp)]
  show (if 2 ≤ (splitPred (fun c => decide (c = '.'))
        ("//@nodes." ++ toString ((m : Int))).toList).length then
      match pyInt? ((splitPred (fun c => decide (c = '.'))
          ("//@nodes." ++ toString ((m : Int))).toList).getLastD []) with
      | some n => Except.ok (some n)
      | none => Except.error ()
    else Except.ok none) = Except.ok (some ((m : Nat) : Int))
  rw [hsplit]
  rw [if_pos (by simp)]
  rw [show (["//@nodes".toList, Nat.toDigits 10 m]).getLastD ([] : List Char) =
    Nat.toDigits 10 m from rfl]
  rw [pyInt_toDigits m]

lemma resolveTokens_append {ts1 ts2 : List (List Char)} {vs1 vs2 : List (Option Int)}
    (h1 : resolveTokens ts1 = Except.ok vs1) (h2 : resolveTokens ts2 = Except.ok vs2) :
    resolveTokens (ts1 ++ ts2) = Except.ok (vs1 ++ vs2) := by
  induction ts1 generalizing vs1 with
  | nil =>
    simp only [resolveTokens] at h1
    cases h1
    simpa using h2
  | cons t rest ih =>
    simp only [resolveTokens, bind, Except.bind] at h1 ⊢
    cases hv : resolve_reference (some (String.mk t)) with
    | error e =>
      rw [hv] at h1
      exact absurd h1 (by simp)
    | ok v =>
      rw [hv] at h1
      cases hrest : resolveTokens rest with
      | error e =>
        rw [hrest] at h1
        exact absurd h1 (by simp)
      | ok vs =>
        rw [hrest] at h1
        simp only [pure, Except.pure] at h1
        have hvs1 : vs1 = v :: vs := (Except.ok.inj h1).symm
        subst hvs1
        rw [List.cons_append]
        rw [show List.append rest ts2 = rest ++ ts2 from rfl]
        rw [ih hrest]
        rfl

lemma resolveTokens_singleton {t : List Char} {v : Option Int}
    (h : resolve_reference (some (String.mk t)) = Except.ok v) :
    resolveTokens [t] = Except.ok [v] := by
  simp only [resolveTokens, bind, Except.bind, h, pure, Except.pure]

lemma mk_toList (s : String) : String.mk s.toList = s := rfl

lemma resolveTokens_nodes_token (m : Nat) :
    resolveTokens [("//@nodes." ++ toString ((m : Int))).toList] =
      Except.ok [some ((m : Nat) : Int)] := by
  apply resolveTokens_singleton
  rw [mk_toList]
  exact resolve_nodes_token m

lemma pySplitWs_nodes_token (m : Nat) :
    pySplitWs ("//@nodes." ++ toString ((m : Int))) =
      [("//@nodes." ++ toString ((m : Int))).toList] := by
  unfold pySplitWs
  rw [splitPred_no_sep _ _ (nodesToken_no_ws m)]
  rw [List.filter_cons]
  rw [if_pos (by
    simp only [decide_eq_true_eq]
    rw [nodesToken_toList]
    simp)]
  rfl

lemma resolve_appendInputRef (cur : Option String) (m : Nat) (L : List (Option Int))
    (hres : resolve_references_list cur = Except.ok L) :
    resolve_references_list (appendInputRef cur ((m : Nat) : Int)) =
      Except.ok (L ++ [some ((m : Nat) : Int)]) := by
  unfold appendInputRef
  cases htr : pyTruthy cur with
  | false =>
    rw [if_neg (by simp [htr])]
    have hL : L = [] := by
      unfold resolve_references_list at hres
      rw [htr] at hres
      rw [if_pos rfl] at hres
      exact (Except.ok.inj hres).symm
    subst hL
    have hne : ("//@nodes." ++ toString ((m : Int))).toList ≠ [] := by
      rw [nodesToken_toList]
      simp
    unfold resolve_references_list
    rw [pyTruthy_some_true _ hne]
    rw [if_neg (by simp)]
    rw [show Option.getD (some ("//@nodes." ++ toString ((m : Int)))) "" =
      "//@nodes." ++ toString ((m : Int)) from rfl]
    rw [pySplitWs_nodes_token m]
    rw [resolveTokens_nodes_token m]
    rfl
  | true =>
    rw [if_pos rfl]
    cases cur with
    | none => cases htr
    | some s =>
      have hslist : (s ++ " //@nodes." ++ toString ((m : Int))).toList =
          s.toList ++ ' ' :: ("//@nodes." ++ toString ((m : Int))).toList := by
        rw [string_append_toList, string_append_toList, string_append_toList]
        rw [show (" //@nodes." : String).toList = ' ' :: ("//@nodes." : String).toList from rfl]
        simp
      have hne2 : (s ++ " //@nodes." ++ toString ((m : Int))).toList ≠ [] := by
        rw [hslist]
        simp
      have hresS : resolveTokens (pySplitWs s) = Except.ok L := by
        unfold resolve_references_list at hres
        rw [htr] at hres
        rw [if_neg (by simp)] at hres
        exact hres
      rw [show (Option.getD (some s) "" : String) = s from rfl]
      unfold resolve_references_list
      rw [pyTruthy_some_true _ hne2]
      rw [if_neg (by simp)]
      rw [show Option.getD (some (s ++ " //@nodes." ++ toString ((m : Int)))) "" =
        s ++ " //@nodes." ++ toString ((m : Int)) from rfl]
      have hsplitS : pySplitWs (s ++ " //@nodes." ++ toString ((m : Int))) =
          pySplitWs s ++ [("//@nodes." ++ toString ((m : Int))).toList] := by
        unfold pySplitWs
        rw [hslist]
        rw [splitPred_append_sep isPyWs (by decide)]
        rw [List.filter_append]
        have := pySplitWs_nodes_token m
        unfold pySplitWs at this
        rw [this]
      rw [hsplitS]
      exact resolveTokens_append hresS (resolveTokens_nodes_token m)

/-! ### Dialect merge (C6) -/

lemma mergedInputInv_weaken {transs : List (Int × TransRec)} {tIdx : Int} {w : Option Int}
    (h : MergedInputInv transs tIdx w) : MergedInputInv transs tIdx none := by
  obtain ⟨rec, L, h1, h2, _⟩ := h
  exact ⟨rec, L, h1, h2, fun x hx => by cases hx⟩

lemma applyInRef_lookup (m : Int) (ts : List (Int × TransRec)) (o : Option Int) (k : Int) :
    lookupDict (applyInRef m ts o) k =
      if o = some k ∧ containsKey ts k = true then
        (lookupDict ts k).map (fun rec => { rec with IN := appendInputRef rec.IN m })
      else lookupDict ts k := by
  cases o with
  | none =>
    rw [if_neg (by simp)]
    rfl
  | some t =>
    have happ : applyInRef m ts (some t) =
        if containsKey ts t = true then
          ts.map (fun p => if p.1 = t then (p.1, { p.2 with IN := appendInputRef p.2.IN m })
            else p)
        else ts := rfl
    rw [happ]
    by_cases hct : containsKey ts t = true
    · rw [if_pos hct]
      rw [lookupDict_map_update (fun rec => { rec with IN := appendInputRef rec.IN m }) t ts k]
      by_cases hkt : k = t
      · subst hkt
        rw [if_pos rfl, if_pos ⟨rfl, hct⟩]
      · rw [if_neg hkt,
          if_neg (fun hc : some t = some k ∧ containsKey ts k = true =>
            hkt (Option.some.inj hc.1).symm)]
    · rw [if_neg hct]
      by_cases hkt : t = k
      · subst hkt
        rw [if_neg (fun hc : some t = some t ∧ containsKey ts t = true => hct hc.2)]
      · rw [if_neg (fun hc : some t = some k ∧ containsKey ts k = true =>
          hct ((Option.some.inj hc.1) ▸ hc.2))]

lemma applyInRef_preserves (m : Nat) {ts : List (Int × TransRec)} {tIdx : Int}
    {w : Option Int} (o : Option Int)
    (h : MergedInputInv ts tIdx w) :
    MergedInputInv (applyInRef ((m : Nat) : Int) ts o) tIdx w := by
  obtain ⟨rec, L, h1, h2, h3⟩ := h
  unfold MergedInputInv
  rw [applyInRef_lookup]
  by_cases hc : o = some tIdx ∧ containsKey ts tIdx = true
  · rw [if_pos hc, h1]
    exact ⟨{ rec with IN := appendInputRef rec.IN ((m : Nat) : Int) },
      L ++ [some ((m : Nat) : Int)], rfl, resolve_appendInputRef rec.IN m L h2,
      fun x hx => List.mem_append_left _ (h3 x hx)⟩
  · rw [if_neg hc]
    exact ⟨rec, L, h1, h2, h3⟩

lemma applyInRef_establishes (m : Nat) {ts : List (Int × TransRec)} {tIdx : Int}
    (h : MergedInputInv ts tIdx none) :
    MergedInputInv (applyInRef ((m : Nat) : Int) ts (some tIdx)) tIdx
      (some ((m : Nat) : Int)) := by
  obtain ⟨rec, L, h1, h2, _⟩ := h
  unfold MergedInputInv
  rw [applyInRef_lookup]
  rw [if_pos ⟨rfl, containsKey_of_lookup h1⟩, h1]
  refine ⟨{ rec with IN := appendInputRef rec.IN ((m : Nat) : Int) },
    L ++ [some ((m : Nat) : Int)], rfl, resolve_appendInputRef rec.IN m L h2, ?_⟩
  intro x hx
  apply List.mem_append_right
  rw [List.mem_singleton]
  rw [← Option.some.inj hx]

lemma foldl_applyInRef_preserves (m : Nat) {tIdx : Int} {w : Option Int} :
    ∀ (refs : List (Option Int)) (ts : List (Int × TransRec)),
      MergedInputInv ts tIdx w →
      MergedInputInv (refs.foldl (applyInRef ((m : Nat) : Int)) ts) tIdx w := by
  intro refs
  induction refs with
  | nil => exact fun ts h => h
  | cons o rest ih =>
    intro ts h
    rw [List.foldl_cons]
    exact ih _ (applyInRef_preserves m o h)

lemma foldl_applyInRef_establishes (m : Nat) {tIdx : Int} :
    ∀ (refs : List (Option Int)) (ts : List (Int × TransRec)),
      some tIdx ∈ refs →
      MergedInputInv ts tIdx none →
      MergedInputInv (refs.foldl (applyInRef ((m : Nat) : Int)) ts) tIdx
        (some ((m : Nat) : Int)) := by
  intro refs
  induction refs with
  | nil =>
    intro ts hmem
    exact absurd hmem (List.not_mem_nil _)
  | cons o rest ih =>
    intro ts hmem h
    rw [List.foldl_cons]
    rcases List.mem_cons.mp hmem with hmem | hmem
    · rw [← hmem]
      exact foldl_applyInRef_preserves m rest _ (applyInRef_establishes m h)
    · exact ih _ hmem (applyInRef_preserves m o h)

lemma natKey_of_mem_parse_nodes {nodes : List RawNode} {b : Int × RawNode}
    (hb : b ∈ parse_nodes nodes) : ∃ n : Nat, b.1 = ((n : Nat) : Int) := by
  unfold parse_nodes at hb
  obtain ⟨p, _, hp⟩ := List.mem_map.mp hb
  exact ⟨p.1, by rw [← hp]⟩

lemma transPass2Step_preserves {tIdx : Int} {w : Option Int} (m : Nat)
    {ts out : List (Int × TransRec)} {item : Int × RawNode}
    (hitem : item.1 = ((m : Nat) : Int))
    (hstep : transPass2Step ts item = Except.ok out)
    (h : MergedInputInv ts tIdx w) : MergedInputInv out tIdx w := by
  unfold transPass2Step at hstep
  by_cases h1 : item.2.xmiType = some "mpm_trace:Model"
  · rw [if_pos h1] at hstep
    by_cases h2 : pyTruthy item.2.attrIn = true
    · rw [if_pos h2] at hstep
      obtain ⟨refs, _, hpure⟩ := except_bind_ok hstep
      simp only [pure, Except.pure] at hpure
      have hout : out = refs.foldl (applyInRef item.1) ts := (Except.ok.inj hpure).symm
      rw [hout, hitem]
      exact foldl_applyInRef_preserves m refs ts h
    · rw [if_neg h2] at hstep
      simp only [pure, Except.pure] at hstep
      rw [← Except.ok.inj hstep]
      exact h
  · rw [if_neg h1] at hstep
    simp only [pure, Except.pure] at hstep
    rw [← Except.ok.inj hstep]
    exact h

lemma foldlM_except_preserve_mem {σ β : Type} (P : σ → Prop) (f : σ → β → Except Unit σ) :
    ∀ (items : List β),
      (∀ s b s', b ∈ items → f s b = Except.ok s' → P s → P s') →
      ∀ (s s' : σ), List.foldlM f s items = Except.ok s' → P s → P s' := by
  intro items
  induction items with
  | nil =>
    intro _ s s' h hs
    simp only [List.foldlM_nil] at h
    cases h
    exact hs
  | cons b rest ih =>
    intro hf s s' h hs
    rw [List.foldlM_cons] at h
    obtain ⟨s1, hs1, hrest⟩ := except_bind_ok h
    exact ih (fun s2 b2 s2' hb2 => hf s2 b2 s2' (List.mem_cons_of_mem _ hb2)) s1 s' hrest
      (hf s b s1 (List.mem_cons_self _ _) hs1 hs)

lemma transPass2Step_establishes (m : Nat) {tIdx : Int} {ts out : List (Int × TransRec)}
    {item : Int × RawNode} {inStr : String} {refs : List (Option Int)}
    (hitem1 : item.1 = ((m : Nat) : Int))
    (hmt : item.2.xmiType = some "mpm_trace:Model")
    (hin : item.2.attrIn = some inStr)
    (hres : resolve_references_list (some inStr) = Except.ok refs)
    (htmem : some tIdx ∈ refs)
    (hstep : transPass2Step ts item = Except.ok out)
    (h : MergedInputInv ts tIdx none) :
    MergedInputInv out tIdx (some ((m : Nat) : Int)) := by
  unfold transPass2Step at hstep
  rw [if_pos hmt] at hstep
  have htruthy : pyTruthy item.2.attrIn = true := by
    rw [hin]
    by_cases he : inStr = ""
    · exfalso
      subst he
      have h0 : resolve_references_list (some "") = Except.ok [] := by decide
      rw [h0] at hres
      have : refs = [] := (Except.ok.inj hres).symm
      rw [this] at htmem
      exact List.not_mem_nil _ htmem
    · exact pyTruthy_some_true inStr (toList_ne_nil_of_ne_empty inStr he)
  rw [if_pos htruthy] at hstep
  rw [hin] at hstep
  obtain ⟨refs2, hrefs2, hpure⟩ := except_bind_ok hstep
  rw [hres] at hrefs2
  have hrefs : refs2 = refs := (Except.ok.inj hrefs2).symm
  subst hrefs
  simp only [pure, Except.pure] at hpure
  have hout : out = refs2.foldl (applyInRef item.1) ts := (Except.ok.inj hpure).symm
  rw [hout, hitem1]
  exact foldl_applyInRef_establishes m refs2 ts htmem h

/-- C6: a Model record whose `In` attribute resolves to the index of an
extracted Transformation ends up, after the two-pass extraction, among the
resolved input references of that Transformation: synthesized as a fresh
`//@nodes.{idx}` reference when the Transformation had no prior inputs, or
appended space-separated otherwise — in both cases the Transformation's
canonical resolved input list contains the Model's own index. -/
theorem claim_C6_dialect_merge (nodes : List RawNode) (midx tIdx : Nat)
    (mnode : RawNode) (inStr : String) (refs : List (Option Int)) (rec0 : TransRec)
    (L0 : List (Option Int)) (trans2 : List (Int × TransRec))
    (hm : nodes[midx]? = some mnode)
    (hmt : mnode.xmiType = some "mpm_trace:Model")
    (hin : mnode.attrIn = some inStr)
    (hres : resolve_references_list (some inStr) = Except.ok refs)
    (htmem : some ((tIdx : Nat) : Int) ∈ refs)
    (hrec0 : lookupDict (transPass1 (parse_nodes nodes)) ((tIdx : Nat) : Int) = some rec0)
    (hIN0 : resolve_references_list rec0.IN = Except.ok L0)
    (hextract : extract_transformations (parse_nodes nodes) = Except.ok trans2) :
    ∃ rec ins, lookupDict trans2 ((tIdx : Nat) : Int) = some rec ∧
      resolve_references_list rec.IN = Except.ok ins ∧
      some ((midx : Nat) : Int) ∈ ins := by
  have hmem : (((midx : Nat) : Int), mnode) ∈ parse_nodes nodes := by
    unfold parse_nodes
    apply List.mem_map.mpr
    refine ⟨(midx, mnode), ?_, rfl⟩
    rw [List.mem_enum_iff_getElem?]
    exact hm
  obtain ⟨l1, l2, hsplit⟩ := List.append_of_mem hmem
  have hsub1 : ∀ b ∈ l1, b ∈ parse_nodes nodes := by
    intro b hb
    rw [hsplit]
    exact List.mem_append_left _ hb
  have hsub2 : ∀ b ∈ l2, b ∈ parse_nodes nodes := by
    intro b hb
    rw [hsplit]
    exact List.mem_append_right _ (List.mem_cons_of_mem _ hb)
  have hinv0 : MergedInputInv (transPass1 (parse_nodes nodes)) ((tIdx : Nat) : Int) none :=
    ⟨rec0, L0, hrec0, hIN0, fun x hx => by cases hx⟩
  unfold extract_transformations at hextract
  generalize hgen : transPass1 (parse_nodes nodes) = init at hextract hinv0
  rw [hsplit] at hextract
  rw [List.foldlM_append] at hextract
  obtain ⟨T1, hT1, hrest⟩ := except_bind_ok hextract
  rw [List.foldlM_cons] at hrest
  obtain ⟨T2, hT2, hsuffix⟩ := except_bind_ok hrest
  have hinv1 : MergedInputInv T1 ((tIdx : Nat) : Int) none := by
    refine foldlM_except_preserve_mem
      (fun ts => MergedInputInv ts ((tIdx : Nat) : Int) none) transPass2Step l1 ?_
      init T1 hT1 hinv0
    intro s b s2 hb hstep hP
    obtain ⟨n, hn⟩ := natKey_of_mem_parse_nodes (hsub1 b hb)
    exact transPass2Step_preserves n hn hstep hP
  have hinv2 : MergedInputInv T2 ((tIdx : Nat) : Int) (some ((midx : Nat) : Int)) :=
    transPass2Step_establishes midx rfl hmt hin hres htmem hT2 hinv1
  have hinv3 : MergedInputInv trans2 ((tIdx : Nat) : Int) (some ((midx : Nat) : Int)) := by
    refine foldlM_except_preserve_mem
      (fun ts => MergedInputInv ts ((tIdx : Nat) : Int) (some ((midx : Nat) : Int)))
      transPass2Step l2 ?_ T2 trans2 hsuffix hinv2
    intro s b s2 hb hstep hP
    obtain ⟨n, hn⟩ := natKey_of_mem_parse_nodes (hsub2 b hb)
    exact transPass2Step_preserves n hn hstep hP
  obtain ⟨rec, ins, h1, h2, h3⟩ := hinv3
  exact ⟨rec, ins, h1, h2, h3 _ rfl⟩

/-- C6 witness: the spec §8 example — a Model at index 0 with
`In = "//@nodes.3"` and a Transformation at index 3 with no `IN` of its
own; after extraction the Transformation's resolved inputs contain 0. -/
theorem claim_C6_witness :
    ∃ rec ins,
      lookupDict [(3, (⟨3, some "T", none, some "//@nodes.0", none⟩ : TransRec))]
          ((3 : Nat) : Int) = some rec ∧
      resolve_references_list rec.IN = Except.ok ins ∧
      some ((0 : Nat) : Int) ∈ ins := by
  have h := claim_C6_dialect_merge nodesMerge 0 3
    ({ xmiType := some "mpm_trace:Model", name := some "M0",
       attrIn := some "//@nodes.3" } : RawNode)
    "//@nodes.3" [some 3] (⟨3, some "T", none, none, none⟩ : TransRec) []
    [(3, ⟨3, some "T", none, some "//@nodes.0", none⟩)]
    (by decide) (by decide) (by decide) (by decide) (by decide) (by decide) (by decide)
    (by decide)
  exact h

/-! ### Level assignor: termination (C8) -/

lemma dictSet_map_eq {α : Type} (m : List (Int × α)) (k : Int) (v : α) :
    m.map (fun p => if p.1 = k then (k, v) else p) =
      m.map (fun p => if p.1 = k then (p.1, (fun _ : α => v) p.2) else p) := by
  apply List.map_congr_left
  intro q _
  by_cases hq : q.1 = k
  · rw [if_pos hq, if_pos hq, hq]
  · rw [if_neg hq, if_neg hq]

lemma lookupDict_dictSet_self {α : Type} (m : List (Int × α)) (k : Int) (v : α) :
    lookupDict (dictSet m k v) k = some v := by
  unfold dictSet
  cases hck : containsKey m k with
  | true =>
    rw [if_pos rfl, dictSet_map_eq, lookupDict_map_update (fun _ : α => v) k m k]
    rw [if_pos rfl]
    cases hm : lookupDict m k with
    | none =>
      exfalso
      obtain ⟨e, he, hek⟩ := (containsKey_true_iff m k).mp hck
      exact lookupDict_none_not_mem hm e he hek
    | some w => rfl
  | false =>
    rw [if_neg (by simp)]
    rw [lookupDict_append]
    rw [lookupDict_none_of_containsKey_false hck]
    simp [lookupDict]

lemma lookupDict_dictSet_other {α : Type} (m : List (Int × α)) (k : Int) (v : α)
    (k' : Int) (h : k' ≠ k) : lookupDict (dictSet m k v) k' = lookupDict m k' := by
  unfold dictSet
  cases hck : containsKey m k with
  | true =>
    rw [if_pos rfl, dictSet_map_eq, lookupDict_map_update (fun _ : α => v) k m k']
    rw [if_neg h]
  | false =>
    rw [if_neg (by simp)]
    rw [lookupDict_append]
    cases hm : lookupDict m k' with
    | some w => rfl
    | none =>
      simp only [lookupDict]
      rw [if_neg (fun hc : k = k' => h hc.symm)]

lemma le_foldr_max : ∀ (l : List Nat) (x : Nat), x ∈ l → x ≤ l.foldr max 0 := by
  intro l
  induction l with
  | nil => simp
  | cons y rest ih =>
    intro x hx
    rcases List.mem_cons.mp hx with hx | hx
    · subst hx
      exact le_max_left _ _
    · exact le_trans (ih x hx) (le_max_right _ _)

lemma mem_childLen_le : ∀ (deps : List (Int × List Int)) (q : Int × List Int),
    q ∈ deps → q.2.length ≤ maxChildLen deps := by
  intro deps
  induction deps with
  | nil => simp
  | cons p rest ih =>
    intro q hq
    unfold maxChildLen
    rw [List.foldr_cons]
    rcases List.mem_cons.mp hq with hm | hm
    · rw [hm]
      exact le_max_left _ _
    · exact le_trans (ih q hm) (le_max_right _ _)

lemma childLen_le_maxChildLen {deps : List (Int × List Int)} {v : Int} {cs : List Int}
    (h : lookupDict deps v = some cs) : cs.length ≤ maxChildLen deps :=
  mem_childLen_le deps (v, cs) (lookupDict_mem h)

lemma bfsPotential_cons (K M : Nat) (p : Int × Int) (rest : List (Int × Int)) :
    bfsPotential K M (p :: rest) = K ^ (M + 1 - p.2.toNat) + bfsPotential K M rest := by
  simp [bfsPotential]

lemma bfsPotential_append (K M : Nat) (q1 q2 : List (Int × Int)) :
    bfsPotential K M (q1 ++ q2) = bfsPotential K M q1 + bfsPotential K M q2 := by
  simp [bfsPotential]

lemma bfsPotential_kids (K M : Nat) (cs : List Int) (l : Int) :
    bfsPotential K M (cs.map (fun c => (c, l + 1))) =
      cs.length * K ^ (M + 1 - (l + 1).toNat) := by
  unfold bfsPotential
  rw [List.map_map]
  have : (fun p : Int × Int => K ^ (M + 1 - p.2.toNat)) ∘ (fun c : Int => (c, l + 1)) =
      fun _ : Int => K ^ (M + 1 - (l + 1).toNat) := rfl
  rw [this]
  induction cs with
  | nil => simp
  | cons c rest ih =>
    rw [List.map_cons, List.sum_cons, ih, List.length_cons]
    ring

lemma bfsRun_succ_cons (deps : List (Int × List Int)) (fuel : Nat)
    (levels : List (Int × Int)) (v l : Int) (rest : List (Int × Int)) :
    bfsRun deps (fuel + 1) levels ((v, l) :: rest) =
      if (match lookupDict levels v with
          | none => true
          | some cur => decide (cur < l)) = true then
        bfsRun deps fuel (dictSet levels v l)
          (rest ++ ((lookupDict deps v).getD []).map (fun c => (c, l + 1)))
      else bfsRun deps fuel levels rest := rfl

lemma bfs_terminates (deps : List (Int × List Int)) (rank : Int → Nat)
    (hrank : IsTopoRank deps rank) (K M : Nat)
    (hKc : maxChildLen deps + 2 ≤ K)
    (hM : ∀ pr ∈ deps, ∀ c ∈ pr.2, rank c ≤ M) :
    ∀ (n : Nat) (levels queue : List (Int × Int)),
      bfsPotential K M queue < n →
      (∀ p ∈ queue, 0 ≤ p.2 ∧ p.2.toNat ≤ rank p.1 ∧ rank p.1 ≤ M) →
      ∃ res, bfsRun deps n levels queue = some res := by
  intro n
  induction n with
  | zero =>
    intro levels queue hpot _
    omega
  | succ n ih =>
    intro levels queue hpot hq
    cases queue with
    | nil => exact ⟨levels, rfl⟩
    | cons p rest =>
      obtain ⟨v, l⟩ := p
      obtain ⟨hl0, hlr, hrM⟩ := hq (v, l) (List.mem_cons_self _ _)
      have hlr2 : l.toNat ≤ rank v := hlr
      have hrM2 : rank v ≤ M := hrM
      have hltM : l.toNat ≤ M := le_trans hlr hrM
      have hexp : M + 1 - l.toNat = (M - l.toNat) + 1 := by omega
      have hK1 : 1 ≤ K ^ (M - l.toNat) := Nat.one_le_pow _ _ (by omega)
      have hpothead : bfsPotential K M ((v, l) :: rest) =
          K ^ (M - l.toNat) * K + bfsPotential K M rest := by
        rw [bfsPotential_cons, hexp, pow_succ]
      have hrest : ∀ p ∈ rest, 0 ≤ p.2 ∧ p.2.toNat ≤ rank p.1 ∧ rank p.1 ≤ M :=
        fun p hp => hq p (List.mem_cons_of_mem _ hp)
      rw [bfsRun_succ_cons]
      have hnoimp : bfsPotential K M rest < n := by
        rw [hpothead] at hpot
        have h2 : 1 ≤ K ^ (M - l.toNat) * K := Nat.one_le_iff_ne_zero.mpr (by
          intro hc
          rcases Nat.mul_eq_zero.mp hc with hc | hc
          · omega
          · omega)
        omega
      cases hcur : lookupDict levels v with
      | some cur =>
        by_cases hlt : cur < l
        · rw [if_pos (by rw [decide_eq_true_eq]; exact hlt)]
          cases hd : lookupDict deps v with
          | none =>
            refine ih (dictSet levels v l) (rest ++ []) (by simpa using hnoimp) ?_
            intro p hp
            exact hrest p (by simpa using hp)
          | some cs =>
            refine ih (dictSet levels v l) _ ?_ ?_
            · rw [bfsPotential_append, bfsPotential_kids]
              rw [show Option.getD (some cs) [] = cs from rfl]
              have htn : (l + 1).toNat = l.toNat + 1 := by omega
              rw [htn]
              rw [show M + 1 - (l.toNat + 1) = M - l.toNat from by omega]
              have hlen : cs.length ≤ K - 2 :=
                le_trans (childLen_le_maxChildLen hd) (by omega)
              have hkids : cs.length * K ^ (M - l.toNat) ≤
                  (K - 2) * K ^ (M - l.toNat) :=
                Nat.mul_le_mul_right _ hlen
              have hsum : (K - 2) * K ^ (M - l.toNat) + 2 * K ^ (M - l.toNat) =
                  K * K ^ (M - l.toNat) := by
                rw [← add_mul]
                congr 1
                omega
              have htwo : 2 ≤ 2 * K ^ (M - l.toNat) := by omega
              rw [hpothead] at hpot
              have hcomm : K ^ (M - l.toNat) * K = K * K ^ (M - l.toNat) :=
                mul_comm _ _
              rw [hcomm] at hpot
              omega
            · intro p hp
              rcases List.mem_append.mp hp with hp | hp
              · exact hrest p hp
              · rw [show Option.getD (some cs) [] = cs from rfl] at hp
                obtain ⟨c, hc, hpc⟩ := List.mem_map.mp hp
                rw [← hpc]
                have hedge : depEdge deps v c := ⟨cs, hd, hc⟩
                have hrc : rank v < rank c := hrank v c hedge
                have hcM : rank c ≤ M := hM (v, cs) (lookupDict_mem hd) c hc
                refine ⟨by omega, by
                  show (l + 1).toNat ≤ rank c
                  omega, hcM⟩
        · rw [if_neg (fun hc => hlt (of_decide_eq_true hc))]
          exact ih levels rest hnoimp hrest
      | none =>
        rw [if_pos rfl]
        cases hd : lookupDict deps v with
        | none =>
          refine ih (dictSet levels v l) (rest ++ []) (by simpa using hnoimp) ?_
          intro p hp
          exact hrest p (by simpa using hp)
        | some cs =>
          refine ih (dictSet levels v l) _ ?_ ?_
          · rw [bfsPotential_append, bfsPotential_kids]
            rw [show Option.getD (some cs) [] = cs from rfl]
            have htn : (l + 1).toNat = l.toNat + 1 := by omega
            rw [htn]
            rw [show M + 1 - (l.toNat + 1) = M - l.toNat from by omega]
            have hlen : cs.length ≤ K - 2 :=
              le_trans (childLen_le_maxChildLen hd) (by omega)
            have hkids : cs.length * K ^ (M - l.toNat) ≤
                (K - 2) * K ^ (M - l.toNat) :=
              Nat.mul_le_mul_right _ hlen
            have hsum : (K - 2) * K ^ (M - l.toNat) + 2 * K ^ (M - l.toNat) =
                K * K ^ (M - l.toNat) := by
              rw [← add_mul]
              congr 1
              omega
            have htwo : 2 ≤ 2 * K ^ (M - l.toNat) := by omega
            rw [hpothead] at hpot
            have hcomm : K ^ (M - l.toNat) * K = K * K ^ (M - l.toNat) :=
              mul_comm _ _
            rw [hcomm] at hpot
            omega
          · intro p hp
            rcases List.mem_append.mp hp with hp | hp
            · exact hrest p hp
            · rw [show Option.getD (some cs) [] = cs from rfl] at hp
              obtain ⟨c, hc, hpc⟩ := List.mem_map.mp hp
              rw [← hpc]
              have hedge : depEdge deps v c := ⟨cs, hd, hc⟩
              have hrc : rank v < rank c := hrank v c hedge
              have hcM : rank c ≤ M := hM (v, cs) (lookupDict_mem hd) c hc
              refine ⟨by omega, by
                show (l + 1).toNat ≤ rank c
                omega, hcM⟩

/-- C8: on an acyclic dependency adjacency map — acyclicity witnessed by a
topological ranking, under which every edge strictly increases the rank —
the level assignor's worklist loop terminates: some finite fuel makes the
fuelled BFS reach the empty queue and return a level mapping. -/
theorem claim_C8_bfs_terminates (traceKeys : List Int) (deps : List (Int × List Int))
    (rank : Int → Nat) (hrank : IsTopoRank deps rank) :
    ∃ fuel final, calculate_node_levels traceKeys deps fuel = some final := by
  have hM : ∀ pr ∈ deps, ∀ c ∈ pr.2,
      rank c ≤ rankUB rank deps (sourceNodes traceKeys deps) := by
    intro pr hpr c hc
    apply le_foldr_max
    exact List.mem_append_right _
      (List.mem_map.mpr ⟨c, List.mem_flatMap.mpr ⟨pr, hpr, hc⟩, rfl⟩)
  have hq0 : ∀ p ∈ (sourceNodes traceKeys deps).map (fun v => (v, (0 : Int))),
      0 ≤ p.2 ∧ p.2.toNat ≤ rank p.1 ∧
        rank p.1 ≤ rankUB rank deps (sourceNodes traceKeys deps) := by
    intro p hp
    obtain ⟨s, hs, hps⟩ := List.mem_map.mp hp
    rw [← hps]
    refine ⟨le_refl 0, Nat.zero_le _, ?_⟩
    apply le_foldr_max
    exact List.mem_append_left _ (List.mem_map.mpr ⟨s, hs, rfl⟩)
  obtain ⟨res, hres⟩ := bfs_terminates deps rank hrank (maxChildLen deps + 2)
    (rankUB rank deps (sourceNodes traceKeys deps)) (le_refl _) hM
    (bfsPotential (maxChildLen deps + 2)
      (rankUB rank deps (sourceNodes traceKeys deps))
      ((sourceNodes traceKeys deps).map (fun v => (v, 0))) + 1)
    [] ((sourceNodes traceKeys deps).map (fun v => (v, 0))) (by omega) hq0
  exact ⟨_, res, hres⟩

lemma rankEx_topo : IsTopoRank [(0, [1, 2]), (2, [1])]
    (fun v => if v = 0 then 0 else if v = 2 then 1 else 2) := by
  intro u v hedge
  obtain ⟨cs, hcs, hv⟩ := hedge
  by_cases h0 : (0 : Int) = u
  · rw [← h0] at hcs
    have hl : lookupDict [((0 : Int), [(1 : Int), 2]), (2, [1])] 0 = some [1, 2] := by decide
    rw [hl] at hcs
    have hcs2 : cs = [1, 2] := (Option.some.inj hcs).symm
    rw [hcs2] at hv
    rw [← h0]
    rcases List.mem_cons.mp hv with hv | hv
    · subst hv
      decide
    · rw [List.mem_singleton] at hv
      subst hv
      decide
  · by_cases h2 : (2 : Int) = u
    · rw [← h2] at hcs
      have hl : lookupDict [((0 : Int), [(1 : Int), 2]), (2, [1])] 2 = some [1] := by decide
      rw [hl] at hcs
      have hcs2 : cs = [1] := (Option.some.inj hcs).symm
      rw [hcs2] at hv
      rw [List.mem_singleton] at hv
      subst hv
      rw [← h2]
      decide
    · exfalso
      have hl : lookupDict [((0 : Int), [(1 : Int), 2]), (2, [1])] u = none := by
        show (if (0 : Int) = u then some [(1 : Int), 2]
          else if (2 : Int) = u then some [1] else none) = none
        rw [if_neg h0, if_neg h2]
      rw [hl] at hcs
      cases hcs

/-- C8 witness: the worklist loop terminates on the concrete acyclic map
with edges 0→1, 0→2, 2→1. -/
theorem claim_C8_witness :
    ∃ fuel final, calculate_node_levels [0, 1, 2] [(0, [1, 2]), (2, [1])] fuel = some final :=
  claim_C8_bfs_terminates [0, 1, 2] [(0, [1, 2]), (2, [1])]
    (fun v => if v = 0 then 0 else if v = 2 then 1 else 2) rankEx_topo

lemma mem_dictSet {α : Type} {m : List (Int × α)} {k : Int} {v : α} {p : Int × α}
    (hp : p ∈ dictSet m k v) : p = (k, v) ∨ p ∈ m := by
  unfold dictSet at hp
  cases hc : containsKey m k with
  | true =>
    rw [hc, if_pos rfl] at hp
    obtain ⟨q, hq, hpe⟩ := List.mem_map.mp hp
    by_cases hk : q.1 = k
    · rw [if_pos hk] at hpe
      left
      exact hpe.symm
    · rw [if_neg hk] at hpe
      right
      rw [← hpe]
      exact hq
  | false =>
    rw [hc, if_neg (by simp)] at hp
    rcases List.mem_append.mp hp with h | h
    · right
      exact h
    · left
      exact List.mem_singleton.mp h

lemma hasPathLen_snoc (deps : List (Int × List Int)) :
    ∀ (n : Nat) (s v c : Int), hasPathLen deps n s v → depEdge deps v c →
      hasPathLen deps (n + 1) s c := by
  intro n
  induction n with
  | zero =>
    intro s v c hp he
    have hsv : s = v := hp
    subst hsv
    exact ⟨c, he, rfl⟩
  | succ n ih =>
    intro s v c hp he
    obtain ⟨w, hw, hp2⟩ := hp
    exact ⟨w, hw, ih w v c hp2 he⟩

lemma hasPathLen_last_edge (deps : List (Int × List Int)) :
    ∀ (n : Nat) (s t : Int), hasPathLen deps (n + 1) s t → ∃ w, depEdge deps w t := by
  intro n
  induction n with
  | zero =>
    intro s t hp
    obtain ⟨w, hw, hwt⟩ := hp
    have hwt2 : w = t := hwt
    subst hwt2
    exact ⟨s, hw⟩
  | succ n ih =>
    intro s t hp
    obtain ⟨w, hw, hp2⟩ := hp
    exact ih w t hp2

lemma source_no_incoming {traceKeys : List Int} {deps : List (Int × List Int)} {s : Int}
    (hs : s ∈ sourceNodes traceKeys deps) : ∀ w, ¬ depEdge deps w s := by
  intro w hedge
  obtain ⟨cs, hcs, hmem⟩ := hedge
  have h2 := List.of_mem_filter hs
  have hnot : s ∉ deps.flatMap (fun p => p.2) := by simpa using h2
  exact hnot (List.mem_flatMap.mpr ⟨(w, cs), lookupDict_mem hcs, hmem⟩)

lemma source_path_len_zero {traceKeys : List Int} {deps : List (Int × List Int)} {s : Int}
    (hs : s ∈ sourceNodes traceKeys deps) :
    ∀ n s2, hasPathLen deps n s2 s → n = 0 := by
  intro n s2 hp
  cases n with
  | zero => rfl
  | succ n =>
    obtain ⟨w, hw⟩ := hasPathLen_last_edge deps n s2 s hp
    exact absurd hw (source_no_incoming hs w)

lemma path_rank_le {deps : List (Int × List Int)} {rank : Int → Nat}
    (hrank : IsTopoRank deps rank) :
    ∀ (n : Nat) (u v : Int), hasPathLen deps n u v → rank u + n ≤ rank v := by
  intro n
  induction n with
  | zero =>
    intro u v hp
    have huv : u = v := hp
    subst huv
    omega
  | succ n ih =>
    intro u v hp
    obtain ⟨w, hw, hp2⟩ := hp
    have h1 : rank u < rank w := hrank u w hw
    have h2 : rank w + n ≤ rank v := ih w v hp2
    omega

lemma topoRank_no_cycle {deps : List (Int × List Int)} {rank : Int → Nat}
    (hrank : IsTopoRank deps rank) (n : Nat) (v : Int) (hn : 0 < n) :
    ¬ hasPathLen deps n v v := by
  intro hp
  have h := path_rank_le hrank n v v hp
  omega

lemma bfs_improve_invariants (deps : List (Int × List Int)) (srcs : List Int)
    (levels rest : List (Int × Int)) (v l : Int)
    (hq : BfsReach deps srcs ((v, l) :: rest))
    (hl : BfsReach deps srcs levels)
    (hpend : BfsPending deps levels ((v, l) :: rest))
    (hcurlt : ∀ cur, lookupDict levels v = some cur → cur < l) :
    BfsReach deps srcs (rest ++ ((lookupDict deps v).getD []).map (fun c => (c, l + 1))) ∧
      BfsReach deps srcs (dictSet levels v l) ∧
      BfsPending deps (dictSet levels v l)
        (rest ++ ((lookupDict deps v).getD []).map (fun c => (c, l + 1))) := by
  obtain ⟨hl0, s0, hs0, hpath0⟩ := hq (v, l) (List.mem_cons_self _ _)
  have hl0' : (0 : Int) ≤ l := hl0
  refine ⟨?_, ?_, ?_⟩
  · intro p hp
    rcases List.mem_append.mp hp with hp | hp
    · exact hq p (List.mem_cons_of_mem _ hp)
    · obtain ⟨c, hc, hpc⟩ := List.mem_map.mp hp
      rw [← hpc]
      cases hd : lookupDict deps v with
      | none =>
        rw [hd] at hc
        cases hc
      | some cs =>
        rw [hd] at hc
        have hedge : depEdge deps v c := ⟨cs, hd, hc⟩
        constructor
        · show (0 : Int) ≤ l + 1
          omega
        · refine ⟨s0, hs0, ?_⟩
          show hasPathLen deps (l + 1).toNat s0 c
          have htn : (l + 1).toNat = l.toNat + 1 := by omega
          rw [htn]
          exact hasPathLen_snoc deps l.toNat s0 v c hpath0 hedge
  · intro p hp
    rcases mem_dictSet hp with hp | hp
    · rw [hp]
      exact ⟨hl0, s0, hs0, hpath0⟩
    · exact hl p hp
  · intro v' L' hlv' cs' hcs' c hc
    by_cases hv : v' = v
    · subst hv
      rw [lookupDict_dictSet_self] at hlv'
      have hLl : L' = l := (Option.some.inj hlv').symm
      left
      refine ⟨l + 1, List.mem_append_right _ (List.mem_map.mpr ⟨c, ?_, rfl⟩), by omega⟩
      rw [hcs']
      exact hc
    · rw [lookupDict_dictSet_other levels v l v' hv] at hlv'
      rcases hpend v' L' hlv' cs' hcs' c hc with ⟨l2, hl2mem, hl2⟩ | ⟨l3, hl3, hl3le⟩
      · rcases List.mem_cons.mp hl2mem with heq | hmem
        · have hcv : c = v := congrArg Prod.fst heq
          have hl2l : l2 = l := congrArg Prod.snd heq
          right
          refine ⟨l, ?_, by omega⟩
          rw [hcv]
          exact lookupDict_dictSet_self levels v l
        · left
          exact ⟨l2, List.mem_append_left _ hmem, hl2⟩
      · by_cases hcv : c = v
        · right
          rw [hcv] at hl3
          have hlt := hcurlt l3 hl3
          refine ⟨l, ?_, by omega⟩
          rw [hcv]
          exact lookupDict_dictSet_self levels v l
        · right
          refine ⟨l3, ?_, hl3le⟩
          rw [lookupDict_dictSet_other levels v l c hcv]
          exact hl3

lemma bfsRun_final (deps : List (Int × List Int)) (srcs : List Int) :
    ∀ (fuel : Nat) (levels queue final : List (Int × Int)),
      bfsRun deps fuel levels queue = some final →
      BfsReach deps srcs queue → BfsReach deps srcs levels →
      BfsPending deps levels queue →
      BfsReach deps srcs final ∧ BfsPending deps final [] ∧
        (∀ p ∈ queue, ∃ L, lookupDict final p.1 = some L ∧ p.2 ≤ L) ∧
        (∀ v L, lookupDict levels v = some L →
          ∃ L2, lookupDict final v = some L2 ∧ L ≤ L2) := by
  intro fuel
  induction fuel with
  | zero =>
    intro levels queue final hrun _ _ _
    exact Option.noConfusion hrun
  | succ fuel ih =>
    intro levels queue final hrun hq hl hpend
    cases queue with
    | nil =>
      have hfl : levels = final := Option.some.inj hrun
      subst hfl
      refine ⟨hl, ?_, ?_, ?_⟩
      · intro v L hvl cs hcs c hc
        rcases hpend v L hvl cs hcs c hc with ⟨l2, hmem, _⟩ | hr
        · exact absurd hmem (List.not_mem_nil _)
        · exact Or.inr hr
      · intro p hp
        exact absurd hp (List.not_mem_nil _)
      · intro v L h
        exact ⟨L, h, le_refl L⟩
    | cons p rest =>
      obtain ⟨v, l⟩ := p
      rw [bfsRun_succ_cons] at hrun
      cases himp : (match lookupDict levels v with
          | none => true
          | some cur => decide (cur < l)) with
      | true =>
        rw [himp, if_pos rfl] at hrun
        have hcurlt : ∀ cur, lookupDict levels v = some cur → cur < l := by
          intro cur hc
          rw [hc] at himp
          exact of_decide_eq_true himp
        obtain ⟨hq', hl', hpend'⟩ :=
          bfs_improve_invariants deps srcs levels rest v l hq hl hpend hcurlt
        obtain ⟨hRfin, hPfin, hQfin, hMfin⟩ := ih _ _ _ hrun hq' hl' hpend'
        refine ⟨hRfin, hPfin, ?_, ?_⟩
        · intro p hp
          rcases List.mem_cons.mp hp with heq | hmem
          · rw [heq]
            obtain ⟨L2, hL2, hle⟩ := hMfin v l (lookupDict_dictSet_self levels v l)
            exact ⟨L2, hL2, hle⟩
          · exact hQfin p (List.mem_append_left _ hmem)
        · intro v' L hv'
          by_cases hv : v' = v
          · rw [hv] at hv' ⊢
            have hlt := hcurlt L hv'
            obtain ⟨L2, hL2, hle⟩ := hMfin v l (lookupDict_dictSet_self levels v l)
            exact ⟨L2, hL2, by omega⟩
          · obtain ⟨L2, hL2, hle⟩ := hMfin v' L (by
              rw [lookupDict_dictSet_other levels v l v' hv]
              exact hv')
            exact ⟨L2, hL2, hle⟩
      | false =>
        rw [himp, if_neg (by simp)] at hrun
        obtain ⟨cur, hcur, hge⟩ : ∃ cur, lookupDict levels v = some cur ∧ l ≤ cur := by
          cases hc : lookupDict levels v with
          | none =>
            rw [hc] at himp
            exact absurd himp (by simp)
          | some cur =>
            rw [hc] at himp
            have hnlt := of_decide_eq_false himp
            exact ⟨cur, rfl, by omega⟩
        have hq' : BfsReach deps srcs rest := fun p hp => hq p (List.mem_cons_of_mem _ hp)
        have hpend' : BfsPending deps levels rest := by
          intro v' L' hlv' cs' hcs' c hc
          rcases hpend v' L' hlv' cs' hcs' c hc with ⟨l2, hl2mem, hl2⟩ | hr
          · rcases List.mem_cons.mp hl2mem with heq | hmem
            · have hcv : c = v := congrArg Prod.fst heq
              have hl2l : l2 = l := congrArg Prod.snd heq
              right
              refine ⟨cur, ?_, by omega⟩
              rw [hcv]
              exact hcur
            · left
              exact ⟨l2, hmem, hl2⟩
          · exact Or.inr hr
        obtain ⟨hRfin, hPfin, hQfin, hMfin⟩ := ih _ _ _ hrun hq' hl hpend'
        refine ⟨hRfin, hPfin, ?_, hMfin⟩
        intro p hp
        rcases List.mem_cons.mp hp with heq | hmem
        · rw [heq]
          obtain ⟨L2, hL2, hle⟩ := hMfin v cur hcur
          exact ⟨L2, hL2, by omega⟩
        · exact hQfin p hmem

lemma path_lower_bound (deps : List (Int × List Int)) (final : List (Int × Int))
    (hpend : BfsPending deps final []) :
    ∀ (n : Nat) (s v : Int) (L0 : Int), hasPathLen deps n s v →
      lookupDict final s = some L0 →
      ∃ L, lookupDict final v = some L ∧ L0 + n ≤ L := by
  intro n
  induction n with
  | zero =>
    intro s v L0 hp hs
    have hsv : s = v := hp
    subst hsv
    exact ⟨L0, hs, by omega⟩
  | succ n ih =>
    intro s v L0 hp hs
    obtain ⟨w, hw, hp2⟩ := hp
    obtain ⟨cs, hcs, hwcs⟩ := hw
    rcases hpend s L0 hs cs hcs w hwcs with ⟨l2, hmem, _⟩ | ⟨l3, hl3, hl3le⟩
    · exact absurd hmem (List.not_mem_nil _)
    · obtain ⟨L, hL, hle⟩ := ih w v l3 hp2 hl3
      exact ⟨L, hL, by omega⟩

lemma calc_levels_spec (traceKeys : List Int) (deps : List (Int × List Int))
    (fuel : Nat) (final : List (Int × Int))
    (hrun : calculate_node_levels traceKeys deps fuel = some final) :
    BfsReach deps (sourceNodes traceKeys deps) final ∧
      BfsPending deps final [] ∧
      ∀ s ∈ sourceNodes traceKeys deps, lookupDict final s = some 0 := by
  have hq0 : BfsReach deps (sourceNodes traceKeys deps)
      ((sourceNodes traceKeys deps).map (fun v => (v, 0))) := by
    intro p hp
    obtain ⟨s, hs, hps⟩ := List.mem_map.mp hp
    rw [← hps]
    refine ⟨le_refl 0, s, hs, ?_⟩
    show hasPathLen deps (0 : Int).toNat s s
    rfl
  have hl0 : BfsReach deps (sourceNodes traceKeys deps) ([] : List (Int × Int)) := by
    intro p hp
    exact absurd hp (List.not_mem_nil _)
  have hpend0 : BfsPending deps []
      ((sourceNodes traceKeys deps).map (fun v => (v, 0))) := by
    intro v L hvl
    exact Option.noConfusion hvl
  unfold calculate_node_levels at hrun
  obtain ⟨hR, hP, hQ, _⟩ := bfsRun_final deps (sourceNodes traceKeys deps) fuel
    [] _ final hrun hq0 hl0 hpend0
  refine ⟨hR, hP, ?_⟩
  intro s hs
  obtain ⟨L, hL, hle⟩ := hQ (s, 0) (List.mem_map.mpr ⟨s, hs, rfl⟩)
  have hL2 : lookupDict final s = some L := hL
  have hle2 : (0 : Int) ≤ L := hle
  obtain ⟨_, s2, hs2, hpath⟩ := hR (s, L) (lookupDict_mem hL2)
  have hzero : L.toNat = 0 := source_path_len_zero hs L.toNat s2 hpath
  have hL0 : L = 0 := by omega
  rw [hL0] at hL2
  exact hL2

/-- C10: whenever the level assignor's fuelled loop completes, every
computed level is a non-negative integer, and every source trace-model
key (one with no incoming dependency edge in the adjacency map) appears
in the output with level exactly 0. -/
theorem claim_C10_levels_nonneg_sources_zero (traceKeys : List Int)
    (deps : List (Int × List Int)) (fuel : Nat) (final : List (Int × Int))
    (hrun : calculate_node_levels traceKeys deps fuel = some final) :
    (∀ p ∈ final, 0 ≤ p.2) ∧
      ∀ s ∈ sourceNodes traceKeys deps, lookupDict final s = some 0 := by
  obtain ⟨hR, _, hS⟩ := calc_levels_spec traceKeys deps fuel final hrun
  exact ⟨fun p hp => (hR p hp).1, hS⟩

/-- C10 witness: on the concrete map with edges 0→1, 0→2, 2→1 all levels
are non-negative and the unique source 0 has level exactly 0. -/
theorem claim_C10_witness :
    (∀ p ∈ [((0 : Int), (0 : Int)), (1, 2), (2, 1)], 0 ≤ p.2) ∧
      ∀ s ∈ sourceNodes [0, 1, 2] [(0, [1, 2]), (2, [1])],
        lookupDict [((0 : Int), (0 : Int)), (1, 2), (2, 1)] s = some 0 :=
  claim_C10_levels_nonneg_sources_zero [0, 1, 2] [(0, [1, 2]), (2, [1])] 16
    [(0, 0), (1, 2), (2, 1)] (by decide)

/-- C2: when the fuelled loop completes, the computed mapping assigns
exactly the longest source-path lengths: a node reachable from a source
by a path of length `n` is assigned a level at least `n`, and every
assigned level `L` is itself the length of an actual source path to the
node; concretely, for edges 0→1, 0→2, 2→1 the computed levels are
node 0 ↦ 0, node 1 ↦ 2 (not 1), node 2 ↦ 1. -/
theorem claim_C2_longest_path_levels (traceKeys : List Int)
    (deps : List (Int × List Int)) (fuel : Nat) (final : List (Int × Int))
    (hrun : calculate_node_levels traceKeys deps fuel = some final) :
    ((∀ (n : Nat) (s v : Int), s ∈ sourceNodes traceKeys deps →
        hasPathLen deps n s v →
        ∃ L, lookupDict final v = some L ∧ (n : Int) ≤ L) ∧
      (∀ (v L : Int), lookupDict final v = some L →
        ∃ s ∈ sourceNodes traceKeys deps, hasPathLen deps L.toNat s v)) ∧
      calculate_node_levels [0, 1, 2] [(0, [1, 2]), (2, [1])] 16 =
        some [(0, 0), (1, 2), (2, 1)] := by
  obtain ⟨hR, hP, hS⟩ := calc_levels_spec traceKeys deps fuel final hrun
  refine ⟨⟨?_, ?_⟩, by decide⟩
  · intro n s v hs hp
    obtain ⟨L, hL, hle⟩ := path_lower_bound deps final hP n s v 0 hp (hS s hs)
    exact ⟨L, hL, by omega⟩
  · intro v L hL
    obtain ⟨_, s, hs, hpath⟩ := hR (v, L) (lookupDict_mem hL)
    exact ⟨s, hs, hpath⟩

/-- C2 witness: the longest-path characterization instantiated on the
concrete run over edges 0→1, 0→2, 2→1 with result levels 0, 2, 1. -/
theorem claim_C2_witness :
    ((∀ (n : Nat) (s v : Int), s ∈ sourceNodes [0, 1, 2] [(0, [1, 2]), (2, [1])] →
        hasPathLen [(0, [1, 2]), (2, [1])] n s v →
        ∃ L, lookupDict [((0 : Int), (0 : Int)), (1, 2), (2, 1)] v = some L ∧
          (n : Int) ≤ L) ∧
      (∀ (v L : Int), lookupDict [((0 : Int), (0 : Int)), (1, 2), (2, 1)] v = some L →
        ∃ s ∈ sourceNodes [0, 1, 2] [(0, [1, 2]), (2, [1])],
          hasPathLen [(0, [1, 2]), (2, [1])] L.toNat s v)) ∧
      calculate_node_levels [0, 1, 2] [(0, [1, 2]), (2, [1])] 16 =
        some [(0, 0), (1, 2), (2, 1)] :=
  claim_C2_longest_path_levels [0, 1, 2] [(0, [1, 2]), (2, [1])] 16
    [(0, 0), (1, 2), (2, 1)] (by decide)
